import Mathlib

/-! # squid_https_everywhere: the rule-matching and rewrite engine

A shallow embedding of `https_everywhere/parse.go` (targets, exclusions, rewrite
rules, bundles `RuleFile`, the corpus `RuleSet` and its loader) and of the sequential
behaviour of `main.go` (the read loop and the worker body), followed by theorems
about them.

Modelling conventions
* A Go `string` is a list of characters (`GoString`); only valid UTF-8 text is
  represented, `len(s) <= 0` is emptiness, `s[1:]` after a one-byte character is
  `List.drop 1`.
* The functions of Go's standard library used by the package (`strings.HasPrefix`,
  `strings.HasSuffix`, `strings.Index`, `strings.Count`, `strings.Replace`,
  `strings.ToLower`, `strconv.FormatInt`) are transcribed from the library.
* `net/url.Parse` and the Unicode case table for non-ASCII runes are parameters
  (`Stdlib`); a compiled `pcre.Regexp` is a parameter too, given by the matcher it
  produces on a subject string; so are the directory walk, the files, the XML
  decoder and `pcre.Compile` (`Loader`).
* The standard input is a finite text; a worker is described by the lines it sends on
  the output channel. The scheduling of the goroutines is not modelled.
-/

set_option autoImplicit false

namespace HttpsEverywhere

/-- A Go string, as its sequence of characters. -/
abbrev GoString := List Char

/-- A Go `error` value, identified by its message. -/
abbrev Error := String

/-! ## Go standard library -/

namespace strings

/-- Go `strings.HasPrefix(s, p)`: `len(s) >= len(p) && s[:len(p)] == p`. -/
def HasPrefix (s p : GoString) : Bool :=
  decide (s.length ≥ p.length) && (s.take p.length == p)

/-- Go `strings.HasSuffix(s, x)`: `len(s) >= len(x) && s[len(s)-len(x):] == x`. -/
def HasSuffix (s x : GoString) : Bool :=
  decide (s.length ≥ x.length) && (s.drop (s.length - x.length) == x)

/-- Go `strings.Index(s, substr)`: the index of the first instance of `substr` in `s`;
`none` stands for Go's `-1`. -/
def Index (s substr : GoString) : Option Nat :=
  if HasPrefix s substr then some 0 else
  match s with
  | [] => none
  | _ :: t => (Index t substr).map (· + 1)

/-- The counting loop of Go `strings.Count` for a non-empty `substr`:
`for { i := Index(s, substr); if i == -1 { return n }; n++; s = s[i+len(substr):] }`.
The first argument bounds the number of iterations. -/
def countLoop (substr : GoString) : Nat → GoString → Nat
  | 0, _ => 0
  | fuel + 1, s =>
    match Index s substr with
    | none => 0
    | some i => countLoop substr fuel (s.drop (i + substr.length)) + 1

/-- Go `strings.Count(s, substr)`: the number of non-overlapping instances of `substr`
in `s`; for an empty `substr` it is the number of characters of `s` plus one. -/
def Count (s substr : GoString) : Nat :=
  if substr.length = 0 then s.length + 1 else countLoop substr s.length s

/-- The copying loop of Go `strings.Replace`, on the part `s[start:]` still to be read:
`n` replacements remain, `i` is the loop counter.
```
j := start
if len(old) == 0 { if i > 0 { _, wid := utf8.DecodeRuneInString(s[start:]); j += wid } }
else { j += Index(s[start:], old) }
b.WriteString(s[start:j]); b.WriteString(new); start = j + len(old)
```
and after the loop `b.WriteString(s[start:])`. -/
def replaceLoop (old new : GoString) : Nat → Nat → GoString → GoString
  | 0, _, rest => rest
  | n + 1, i, rest =>
    if old.length = 0 then
      let wid := if i > 0 then min 1 rest.length else 0
      rest.take wid ++ new ++ replaceLoop old new n (i + 1) (rest.drop wid)
    else
      match Index rest old with
      | some j => rest.take j ++ new ++ replaceLoop old new n (i + 1) (rest.drop (j + old.length))
      | none => rest

/-- Go `strings.Replace(s, old, new, n)`: a copy of `s` with the first `n`
non-overlapping instances of `old` replaced by `new`; no limit when `n < 0`. -/
def Replace (s old new : GoString) (n : Int) : GoString :=
  if old = new ∨ n = 0 then s else
  let m := Count s old
  if m = 0 then s else
  let n := if n < 0 ∨ (m : Int) < n then m else n.toNat
  replaceLoop old new n 0 s

end strings

namespace unicode

/-- Go `unicode.ToLower(r)`: ASCII letters are handled arithmetically, every other
rune goes through the Unicode case table `tbl`. -/
def ToLower (tbl : Char → Char) (r : Char) : Char :=
  if r.toNat ≤ 0x7F then
    if 'A'.toNat ≤ r.toNat ∧ r.toNat ≤ 'Z'.toNat then Char.ofNat (r.toNat + ('a'.toNat - 'A'.toNat)) else r
  else tbl r

end unicode

namespace strconv

/-- Go `strconv.FormatInt(i, 10)`: the decimal representation of `i`. -/
def FormatInt (i : Int) : GoString :=
  if i < 0 then '-' :: Nat.toDigits 10 i.natAbs else Nat.toDigits 10 i.toNat

end strconv

namespace strings

/-- Go `strings.ToLower(s)`: every rune of `s` mapped through `unicode.ToLower`. -/
def ToLower (tbl : Char → Char) (s : GoString) : GoString :=
  s.map (unicode.ToLower tbl)

end strings

/-- The part of a parsed `net/url.URL` that the package reads. -/
structure URL where
  Host : GoString

/-- The library behaviour the package is parameterised by: the Unicode lower-case
table for non-ASCII runes and `net/url.Parse`. -/
structure Stdlib where
  caseTable : Char → Char
  Parse : GoString → Except Error URL

/-! ## Compiled regular expressions (`pcre.Regexp`) -/

/-- The result of `Regexp.MatcherString(subject, 0)`: whether the pattern matched,
the number of capture groups of the pattern, and the text of each group
(group `0` is the whole match, an unset group is the empty string). -/
structure Matcher where
  Matches : Bool
  Groups : Nat
  GroupString : Nat → GoString

/-- A compiled pattern, given by the matcher it produces on a subject. -/
structure Regexp where
  MatcherString : GoString → Matcher

/-! ## `parse.go` -/

structure Rule where
  From_ : GoString
  From : Regexp
  To : GoString

/-- The loop `for group := 1; group <= groups; group++` of `Rule.Apply`, with `k`
iterations left:
`newUrl = strings.Replace(newUrl, "$"+strconv.FormatInt(int64(group), 10), matcher.GroupString(group), -1)`. -/
def Rule.groupLoop (matcher : Matcher) : Nat → Nat → GoString → GoString
  | 0, _, newUrl => newUrl
  | k + 1, group, newUrl =>
    Rule.groupLoop matcher k (group + 1)
      (strings.Replace newUrl ('$' :: strconv.FormatInt group) (matcher.GroupString group) (-1))

/-- `func (r *Rule) Apply(url string) (string, bool)`. -/
def Rule.Apply (r : Rule) (url : GoString) : GoString × Bool :=
  let matcher := r.From.MatcherString url
  if !matcher.Matches then (url, false) else
  let groups := matcher.Groups
  let newUrl := strings.Replace url (matcher.GroupString 0) r.To 1
  let newUrl := Rule.groupLoop matcher groups 1 newUrl
  (newUrl, true)

structure Exclusion where
  Pattern_ : GoString
  Pattern : Regexp

/-- `func (e *Exclusion) Match(url string) bool`. -/
def Exclusion.Match (e : Exclusion) (url : GoString) : Bool :=
  let matcher := e.Pattern.MatcherString url
  matcher.Matches

structure Target where
  Host : GoString

/-- `func (t *Target) Initialize() error`: the target with its host lower-cased; the
returned error is always `nil`. -/
def Target.Initialize (L : Stdlib) (t : Target) : Target × Option Error :=
  ({ t with Host := strings.ToLower L.caseTable t.Host }, none)

/-- `func (t *Target) Match(host string) bool`. -/
def Target.Match (t : Target) (host : GoString) : Bool :=
  if strings.HasPrefix t.Host "*.".toList then
    strings.HasSuffix host (t.Host.drop 1)
  else
    t.Host == host

structure RuleFile where
  DefaultOff : GoString
  Targets : List Target
  Exclusions : List Exclusion
  Rules : List Rule

/-- The loop over `r.Targets` in `RuleFile.Apply`: the final value of `matchesTargets`. -/
def RuleFile.targetsLoop (host : GoString) : List Target → Bool
  | [] => false
  | target :: rest => if target.Match host then true else RuleFile.targetsLoop host rest

/-- The loop over `r.Exclusions` in `RuleFile.Apply`: `true` when it returns from
inside the loop. -/
def RuleFile.exclusionsLoop (original : GoString) : List Exclusion → Bool
  | [] => false
  | exclusion :: rest =>
    if exclusion.Match original then true else RuleFile.exclusionsLoop original rest

/-- The loop over `r.Rules` in `RuleFile.Apply`, with the final `return false, original, nil`. -/
def RuleFile.rulesLoop (original : GoString) : List Rule → Bool × GoString × Option Error
  | [] => (false, original, none)
  | rule :: rest =>
    match rule.Apply original with
    | (newUrl, applied) =>
      if applied then (applied, newUrl, none) else RuleFile.rulesLoop original rest

/-- `func (r *RuleFile) Apply(original string, host string) (bool, string, error)`. -/
def RuleFile.Apply (L : Stdlib) (r : RuleFile) (original host : GoString) :
    Bool × GoString × Option Error :=
  let resolved : Except Error GoString :=
    if host.length ≤ 0 then
      match L.Parse original with
      | .error err => .error err
      | .ok parsedOriginal => .ok (strings.ToLower L.caseTable parsedOriginal.Host)
    else .ok host
  match resolved with
  | .error err => (false, original, some err)
  | .ok host =>
    let matchesTargets := RuleFile.targetsLoop host r.Targets
    if !matchesTargets then (false, original, none) else
    if RuleFile.exclusionsLoop original r.Exclusions then (false, original, none) else
    RuleFile.rulesLoop original r.Rules

/-- The corpus: `type RuleSet []*RuleFile`. -/
abbrev RuleSet := List RuleFile

/-- The loop over the bundles in `RuleSet.Apply`, with the final
`return false, original, nil`. -/
def RuleSet.bundlesLoop (L : Stdlib) (original host : GoString) :
    List RuleFile → Bool × GoString × Option Error
  | [] => (false, original, none)
  | rule :: rest =>
    match RuleFile.Apply L rule original host with
    | (applied, newUrl, err) =>
      if applied || err.isSome then (applied, newUrl, err)
      else RuleSet.bundlesLoop L original host rest

/-- `func (r RuleSet) Apply(original string, host string) (bool, string, error)`. -/
def RuleSet.Apply (L : Stdlib) (r : RuleSet) (original host : GoString) :
    Bool × GoString × Option Error :=
  let resolved : Except Error GoString :=
    if host.length ≤ 0 then
      match L.Parse original with
      | .error err => .error err
      | .ok parsedOriginal => .ok (strings.ToLower L.caseTable parsedOriginal.Host)
    else .ok host
  match resolved with
  | .error err => (false, original, some err)
  | .ok host => RuleSet.bundlesLoop L original host r

/-! ## Specification-level notions used in the statements -/

/-- The host a bundle or the corpus matches targets against: the `host` argument
when it is non-empty, otherwise the lower-cased host component of the parsed URL. -/
def HostResolvesTo (L : Stdlib) (original host resolved : GoString) : Prop :=
  (host ≠ [] ∧ resolved = host) ∨
  (host = [] ∧ ∃ p : URL, L.Parse original = .ok p ∧
    resolved = strings.ToLower L.caseTable p.Host)

/-- Whether a bundle result ends the iteration of the corpus: it reports
`applied == true` or carries an error. -/
def Decisive (res : Bool × GoString × Option Error) : Bool :=
  res.1 || res.2.2.isSome

/-- The text `s` with the first occurrence of `old` replaced by `new`: `s` is read
from the left up to the first position where `old` stands; `s` itself when `old`
occurs nowhere. -/
def replaceFirstOccurrence (old new : GoString) (s : GoString) : GoString :=
  if old.isPrefixOf s then new ++ s.drop old.length else
  match s with
  | [] => []
  | c :: t => c :: replaceFirstOccurrence old new t

/-- Every occurrence of the non-empty token `old` replaced by `new`, reading `s` from
the left; `skip` characters of an occurrence just replaced are still to be passed over. -/
def replaceEveryFrom (old new : GoString) : Nat → GoString → GoString
  | _, [] => []
  | skip + 1, _ :: t => replaceEveryFrom old new skip t
  | 0, c :: t =>
    if old.isPrefixOf (c :: t) then new ++ replaceEveryFrom old new (old.length - 1) t
    else c :: replaceEveryFrom old new 0 t

/-- The text `s` with every occurrence of the non-empty token `old` replaced by `new`. -/
def replaceEveryOccurrence (old new : GoString) (s : GoString) : GoString :=
  replaceEveryFrom old new 0 s

/-- The literal token `$k`, with `k` written in decimal. -/
def placeholder (k : Nat) : GoString :=
  '$' :: (Nat.repr k).toList

/-- The placeholder substitution of the specification: for `k = 1..n` in increasing
order, every occurrence of the token `$k` is replaced by the text of group `k`. -/
def substitutePlaceholders (groupText : Nat → GoString) (n : Nat) (s : GoString) : GoString :=
  (List.range' 1 n).foldl
    (fun acc k => replaceEveryOccurrence (placeholder k) (groupText k) acc) s

/-- The rewrite of the specification for a URL `u` matched with group texts
`groupText 0 .. groupText n` and the template: the first occurrence of the full match
text is replaced by the template, then the placeholders are substituted. -/
def specRewrite (groupText : Nat → GoString) (n : Nat) (template u : GoString) : GoString :=
  substitutePlaceholders groupText n (replaceFirstOccurrence (groupText 0) template u)

/-! ## Concrete patterns and library behaviour for the examples -/

/-- The matcher of a pattern with `groups` capture groups on a subject it does not match. -/
def noMatch (groups : Nat) : Matcher :=
  { Matches := false, Groups := groups, GroupString := fun _ => [] }

/-- The compiled pattern `^lit`, for a literal text `lit` without metacharacters:
it matches the subjects that start with `lit`; there is no capture group. -/
def pcreAnchoredLiteral (lit : GoString) : Regexp where
  MatcherString := fun subject =>
    if strings.HasPrefix subject lit then
      { Matches := true, Groups := 0, GroupString := fun k => if k = 0 then lit else [] }
    else noMatch 0

/-- The compiled pattern `^http://(.+)$`: the subject is `http://` followed by a
non-empty text without a newline, optionally followed by one final newline (which
`$` does not consume); group 1 is that text. -/
def pcreHttpAny : Regexp where
  MatcherString := fun subject =>
    if strings.HasPrefix subject "http://".toList then
      let rest := subject.drop 7
      let body := if rest.getLast? = some '\n' then rest.dropLast else rest
      if body ≠ [] ∧ '\n' ∉ body then
        { Matches := true, Groups := 1,
          GroupString := fun k =>
            if k = 0 then "http://".toList ++ body else if k = 1 then body else [] }
      else noMatch 1
    else noMatch 1

/-- A reading of `net/url.Parse` that is enough for the examples: a text starting
with `:` has no scheme and is rejected, the host of `scheme://host/...` is the text
between `://` and the next `/`, `?` or `#`, and a text without `://` has an empty host. -/
def sampleParse (u : GoString) : Except Error URL :=
  if strings.HasPrefix u ":".toList then .error "missing protocol scheme" else
  match strings.Index u "://".toList with
  | some i => .ok ⟨(u.drop (i + 3)).takeWhile (fun c => c != '/' && c != '?' && c != '#')⟩
  | none => .ok ⟨[]⟩

/-- Library behaviour for the examples (all of them use ASCII text). -/
def sampleStdlib : Stdlib where
  caseTable := id
  Parse := sampleParse

/-- The rule `from="^http://(.+)$" to="https://$1"`. -/
def upgradeRule : Rule where
  From_ := "^http://(.+)$".toList
  From := pcreHttpAny
  To := "https://$1".toList

/-- The rule `from="^http://example\.com/" to="https://secure.example.com/"`. -/
def secureRule : Rule where
  From_ := "^http://example\\.com/".toList
  From := pcreAnchoredLiteral "http://example.com/".toList
  To := "https://secure.example.com/".toList

/-- The exclusion `pattern="^http://example\.com/private/"`. -/
def privateExclusion : Exclusion where
  Pattern_ := "^http://example\\.com/private/".toList
  Pattern := pcreAnchoredLiteral "http://example.com/private/".toList

/-- A bundle for `example.com` with one exclusion and two rules that both match
`http://example.com/...`. -/
def exampleBundle : RuleFile where
  DefaultOff := []
  Targets := [⟨"example.com".toList⟩, ⟨"*.example.com".toList⟩]
  Exclusions := [privateExclusion]
  Rules := [secureRule, upgradeRule]

/-- A bundle for `example.com` whose only rule rewrites `http://example.com/legacy/`. -/
def legacyBundle : RuleFile where
  DefaultOff := []
  Targets := [⟨"example.com".toList⟩]
  Exclusions := []
  Rules := [{ From_ := "^http://example\\.com/legacy/".toList,
              From := pcreAnchoredLiteral "http://example.com/legacy/".toList,
              To := "https://legacy.example.com/".toList }]

/-- The compiled pattern `^http://(.)(.)(.)(.)(.)(.)(.)(.)(.)(.)/$`, with ten capture
groups of one character each: the subject is `http://`, ten characters other than a
newline and `/`, optionally followed by one final newline; group `k` is the `k`-th of
the ten characters. -/
def pcreTenGroups : Regexp where
  MatcherString := fun subject =>
    let rest := subject.drop 7
    let body := if rest.getLast? = some '\n' then rest.dropLast else rest
    if strings.HasPrefix subject "http://".toList ∧ body.length = 11 ∧
        body.drop 10 = ['/'] ∧ '\n' ∉ body.take 10 then
      { Matches := true, Groups := 10,
        GroupString := fun k =>
          if k = 0 then "http://".toList ++ body
          else if k ≤ 10 then (body.drop (k - 1)).take 1 else [] }
    else noMatch 10

/-- The rule `from="^http://(.)(.)(.)(.)(.)(.)(.)(.)(.)(.)/$" to="https://$10/"`. -/
def tenGroupsRule : Rule where
  From_ := "^http://(.)(.)(.)(.)(.)(.)(.)(.)(.)(.)/$".toList
  From := pcreTenGroups
  To := "https://$10/".toList

/-- A bundle declared for the target `Example.COM`, initialised, with the rule
`upgradeRule`. -/
def mixedCaseBundle : RuleFile where
  DefaultOff := []
  Targets := [(Target.Initialize sampleStdlib ⟨"Example.COM".toList⟩).1]
  Exclusions := []
  Rules := [upgradeRule]

/-! ## Loading the corpus (`ParseRuleFile`, `ParseDirectory`) -/

namespace strings

/-- The loop of Go `strings.genSplit` for a non-empty separator, with `n` separators
still to be looked for:
`for i < n { m := Index(s, sep); if m < 0 { break }; a[i] = s[:m]; s = s[m+len(sep):]; i++ }; a[i] = s`. -/
def splitLoop (sep : GoString) : Nat → GoString → List GoString
  | 0, s => [s]
  | n + 1, s =>
    match Index s sep with
    | none => [s]
    | some m => s.take m :: splitLoop sep n (s.drop (m + sep.length))

/-- Go `strings.Split(s, sep)`: the substrings of `s` between the instances of `sep`;
an empty `sep` splits after each character. -/
def Split (s sep : GoString) : List GoString :=
  if sep.length = 0 then s.map (fun c => [c])
  else splitLoop sep (min (Count s sep + 1) (s.length + 1) - 1) s

end strings

namespace filepath

/-- The loop of Go `filepath.Ext`, reading the path backwards: `before` is the part
still to be read (reversed) and `after` the part already passed. -/
def extLoop : List Char → GoString → GoString
  | [], _ => []
  | c :: before, after =>
    if c = '/' then [] else if c = '.' then c :: after else extLoop before (c :: after)

/-- Go `filepath.Ext(path)`: the suffix beginning at the final dot in the final element
of `path`; empty if there is no dot. -/
def Ext (path : GoString) : GoString :=
  extLoop path.reverse []

end filepath

/-- One call of the walk function by `filepath.Walk`: the path, `info.IsDir()` and the
error handed to the function. -/
structure WalkEntry where
  path : GoString
  IsDir : Bool
  err : Option Error

/-- The collaborators of the loader: the sequence of calls `filepath.Walk` makes for a
directory, `os.OpenFile` (the content of the file), the XML decoder and `pcre.Compile`. -/
structure Loader where
  Walk : GoString → List WalkEntry
  OpenFile : GoString → Except Error GoString
  Decode : GoString → Except Error RuleFile
  Compile : GoString → Except Error Regexp

/-- `func (r *Rule) Initialize() error`: the rule with its pattern compiled, or the error. -/
def Rule.Initialize (env : Loader) (r : Rule) : Except Error Rule :=
  match env.Compile r.From_ with
  | .error err => .error err
  | .ok re => .ok { r with From := re }

/-- `func (e *Exclusion) Initialize() error`. -/
def Exclusion.Initialize (env : Loader) (e : Exclusion) : Except Error Exclusion :=
  match env.Compile e.Pattern_ with
  | .error err => .error err
  | .ok re => .ok { e with Pattern := re }

/-- The loop over `r.Targets` of `RuleFile.Initialize`. -/
def RuleFile.initTargets (L : Stdlib) : List Target → Except Error (List Target)
  | [] => .ok []
  | target :: rest =>
    match target.Initialize L with
    | (_, some err) => .error err
    | (target, none) =>
      match RuleFile.initTargets L rest with
      | .error err => .error err
      | .ok rest => .ok (target :: rest)

/-- The loop over `r.Exclusions` of `RuleFile.Initialize`. -/
def RuleFile.initExclusions (env : Loader) : List Exclusion → Except Error (List Exclusion)
  | [] => .ok []
  | exclusion :: rest =>
    match exclusion.Initialize env with
    | .error err => .error err
    | .ok exclusion =>
      match RuleFile.initExclusions env rest with
      | .error err => .error err
      | .ok rest => .ok (exclusion :: rest)

/-- The loop over `r.Rules` of `RuleFile.Initialize`. -/
def RuleFile.initRules (env : Loader) : List Rule → Except Error (List Rule)
  | [] => .ok []
  | rule :: rest =>
    match rule.Initialize env with
    | .error err => .error err
    | .ok rule =>
      match RuleFile.initRules env rest with
      | .error err => .error err
      | .ok rest => .ok (rule :: rest)

/-- `func (r *RuleFile) Initialize() error`: the initialised bundle, or the first error. -/
def RuleFile.Initialize (L : Stdlib) (env : Loader) (r : RuleFile) : Except Error RuleFile :=
  match RuleFile.initTargets L r.Targets with
  | .error err => .error err
  | .ok targets =>
    match RuleFile.initExclusions env r.Exclusions with
    | .error err => .error err
    | .ok exclusions =>
      match RuleFile.initRules env r.Rules with
      | .error err => .error err
      | .ok rules => .ok { r with Targets := targets, Exclusions := exclusions, Rules := rules }

/-- `func ParseRuleFile(r io.Reader) (*RuleFile, error)`, on the content of the reader. -/
def ParseRuleFile (L : Stdlib) (env : Loader) (r : GoString) : Except Error RuleFile :=
  match env.Decode r with
  | .error err => .error err
  | .ok ruleFile =>
    match RuleFile.Initialize L env ruleFile with
    | .error err => .error err
    | .ok ruleFile => .ok ruleFile

/-- The walk function of `ParseDirectory`, called on one entry with the corpus `rs`
collected so far: the corpus after the call, or the error the function returns. -/
def ParseDirectory.walkFn (L : Stdlib) (env : Loader) (entry : WalkEntry) (rs : RuleSet) :
    Except Error RuleSet :=
  match entry.err with
  | some err => .error err
  | none =>
    if entry.IsDir then .ok rs
    else if filepath.Ext entry.path ≠ ".xml".toList then .ok rs
    else
      match env.OpenFile entry.path with
      | .error err => .error err
      | .ok file =>
        match ParseRuleFile L env file with
        | .error err => .error err
        | .ok parsed =>
          if parsed.DefaultOff.length > 0 then .ok rs
          else .ok (rs ++ [parsed])

/-- The calls of the walk function made by `filepath.Walk`, which stops at the first
error the function returns. -/
def ParseDirectory.walk (L : Stdlib) (env : Loader) : List WalkEntry → RuleSet → Except Error RuleSet
  | [], rs => .ok rs
  | entry :: rest, rs =>
    match ParseDirectory.walkFn L env entry rs with
    | .error err => .error err
    | .ok rs => ParseDirectory.walk L env rest rs

/-- `func ParseDirectory(dir string) (RuleSet, error)`. -/
def ParseDirectory (L : Stdlib) (env : Loader) (dir : GoString) : Except Error RuleSet :=
  ParseDirectory.walk L env (env.Walk dir) []

/-! ## `main.go` -/

/-- A fault that ends a goroutine abnormally: a Go run-time panic on an index out of
range, or `panic(err)`. `iterationBound` is not a Go fault: it marks a run of the model
that used up its iteration bound. -/
inductive Fault where
  | indexOutOfRange
  | panic (err : Error)
  | iterationBound

/-- The Go index expression `a[i]`, which panics when `i` is out of range. -/
def index (a : List GoString) (i : Nat) : Except Fault GoString :=
  match a.get? i with
  | some x => .ok x
  | none => .error Fault.indexOutOfRange

namespace bufio

/-- Go `(*bufio.Reader).ReadString(delim)` on the text still to be read: the text up to
and including the first `delim`, whether the end of the input was met before a `delim`
(`err == io.EOF`), and the text left in the reader. -/
def ReadString (input : GoString) (delim : Char) : GoString × Bool × GoString :=
  match input with
  | [] => ([], true, [])
  | c :: rest =>
    if c = delim then ([c], false, rest)
    else
      match ReadString rest delim with
      | (line, eof, left) => (c :: line, eof, left)

end bufio

structure MessageInfo where
  RequestID : GoString
  URL : GoString
  IP : GoString
  Method : GoString
  deriving DecidableEq

/-- The body of `handleIncomingMessage` up to the deferred calls: the lines sent on
`outputChannel` and the value it panics with, if it does. -/
def handleIncomingMessage.body (L : Stdlib) (ruleset : RuleSet) (messageInfo : MessageInfo) :
    List GoString × Option Error :=
  match RuleSet.Apply L ruleset messageInfo.URL [] with
  | (applied, newUrl, err) =>
    match err with
    | some err => ([], some err)
    | none =>
      if !applied then ([messageInfo.RequestID ++ " OK\n".toList], none)
      else
        ([messageInfo.RequestID ++ " OK status=301 url=\"".toList ++ newUrl ++ "\"\n".toList],
          none)

/-- `func handleIncomingMessage(messageInfo *MessageInfo)`: the lines the goroutine sends
on `outputChannel`, in order. The deferred function recovers a panic and sends
`fmt.Sprintf("%s BH message=%s\n", messageInfo.RequestID, err)`. -/
def handleIncomingMessage (L : Stdlib) (ruleset : RuleSet) (messageInfo : MessageInfo) :
    List GoString :=
  match handleIncomingMessage.body L ruleset messageInfo with
  | (sent, some err) =>
    sent ++ [messageInfo.RequestID ++ " BH message=".toList ++ err.toList ++ "\n".toList]
  | (sent, none) => sent

/-- The body of the read loop of `main` for a line read without error: `none` when the
loop continues without starting a worker, otherwise the `MessageInfo` handed to
`go handleIncomingMessage(...)`. -/
def main.lineRequest (incomingLine : GoString) : Except Fault (Option MessageInfo) :=
  let splitLine := strings.Split incomingLine " ".toList
  if splitLine.length < 6 then .ok none
  else do
    let field2 ← index splitLine 2
    let ipSlit := strings.Split field2 "/".toList
    let field0 ← index splitLine 0
    let field1 ← index splitLine 1
    let ip ← index ipSlit 0
    let field4 ← index splitLine 4
    pure (some { RequestID := field0, URL := field1, IP := ip, Method := field4 })

/-- The read loop of `main` on the text of the standard input, with a bound on the
number of iterations: the requests for which a worker is started, in input order. -/
def main.readLoop : Nat → GoString → Except Fault (List MessageInfo)
  | 0, _ => .error Fault.iterationBound
  | fuel + 1, stdin =>
    match bufio.ReadString stdin '\n' with
    | (_, true, _) => .ok []
    | (incomingLine, false, rest) =>
      match main.lineRequest incomingLine with
      | .error fault => .error fault
      | .ok none => main.readLoop fuel rest
      | .ok (some messageInfo) =>
        match main.readLoop fuel rest with
        | .error fault => .error fault
        | .ok started => .ok (messageInfo :: started)

/-- The read loop of `main` on the whole standard input: the bound is never reached,
every iteration consumes at least one character. -/
def main.requests (stdin : GoString) : Except Fault (List MessageInfo) :=
  main.readLoop (stdin.length + 1) stdin

/-- The lines sent on `outputChannel` by the workers started by the read loop, listed
in the order in which the workers were started (they reach the standard output in the
order in which the workers complete). -/
def main.linesSent (L : Stdlib) (ruleset : RuleSet) (stdin : GoString) :
    Except Fault (List GoString) :=
  match main.requests stdin with
  | .error fault => .error fault
  | .ok started => .ok ((started.map (handleIncomingMessage L ruleset)).flatten)

/-- `func main()`, sequentially: the corpus is loaded (`panic(err)` on failure), then the
read loop starts one worker per accepted line; the result is the decision lines of
the workers. -/
def main (L : Stdlib) (env : Loader) (ruleDirectory stdin : GoString) :
    Except Fault (List GoString) :=
  match ParseDirectory L env ruleDirectory with
  | .error err => .error (Fault.panic err)
  | .ok ruleset => main.linesSent L ruleset stdin

/-- The request of the specification for an input line: none for a line with fewer
than 6 space-separated fields, otherwise the identifier is field 0, the URL field 1,
the address the part of field 2 before the first `/`, the method field 4. -/
def requestOfLine (line : GoString) : Option MessageInfo :=
  let fields := strings.Split line " ".toList
  if 6 ≤ fields.length then
    some { RequestID := fields.getD 0 [], URL := fields.getD 1 [],
           IP := (strings.Split (fields.getD 2 []) "/".toList).getD 0 [],
           Method := fields.getD 4 [] }
  else none

/-- The text of the standard input made of the given lines, each terminated by a
newline, followed by a last text `tail`. -/
def inputOf (lines : List GoString) (tail : GoString) : GoString :=
  (lines.map (fun l => l ++ ['\n'])).flatten ++ tail

/-- The decision line of the specification for a request identifier and a result of the
corpus: `BH` with the error text on an error, `OK` alone when not applied, `OK` with
the redirect when applied. -/
def decisionLine (requestID : GoString) (res : Bool × GoString × Option Error) : GoString :=
  match res with
  | (_, _, some err) => requestID ++ " BH message=".toList ++ err.toList ++ "\n".toList
  | (false, _, none) => requestID ++ " OK\n".toList
  | (true, newUrl, none) =>
    requestID ++ " OK status=301 url=\"".toList ++ newUrl ++ "\"\n".toList

/-- A bundle for `example.com` with the single rule `upgradeRule`. -/
def upgradeBundle : RuleFile where
  DefaultOff := []
  Targets := [⟨"example.com".toList⟩]
  Exclusions := []
  Rules := [upgradeRule]

/-- The content of the rule document `rules/example.xml` of the examples. -/
def exampleXml : GoString :=
  "<ruleset name=\"Example\"><target host=\"Example.com\"/><rule from=\"^http://(.+)$\" to=\"https://$1\"/></ruleset>".toList

/-- The content of the rule document `rules/disabled.xml` of the examples. -/
def disabledXml : GoString :=
  "<ruleset name=\"Off\" default_off=\"testing\"><target host=\"example.com\"/><rule from=\"^http://(.+)$\" to=\"https://$1\"/></ruleset>".toList

/-- A loader for the examples: the directory `rules` holds a text file and the two
rule documents above; the decoder and the compiler know these documents and the
pattern `^http://(.+)$`. -/
def sampleLoader : Loader where
  Walk := fun dir =>
    if dir = "rules".toList then
      [⟨"rules".toList, true, none⟩, ⟨"rules/README".toList, false, none⟩,
       ⟨"rules/disabled.xml".toList, false, none⟩, ⟨"rules/example.xml".toList, false, none⟩]
    else [⟨dir, false, some "no such file or directory"⟩]
  OpenFile := fun path =>
    if path = "rules/example.xml".toList then .ok exampleXml
    else if path = "rules/disabled.xml".toList then .ok disabledXml
    else .error "permission denied"
  Decode := fun content =>
    if content = exampleXml then
      .ok { DefaultOff := [], Targets := [⟨"Example.com".toList⟩], Exclusions := [],
            Rules := [⟨"^http://(.+)$".toList, ⟨fun _ => noMatch 0⟩, "https://$1".toList⟩] }
    else if content = disabledXml then
      .ok { DefaultOff := "testing".toList, Targets := [⟨"example.com".toList⟩],
            Exclusions := [],
            Rules := [⟨"^http://(.+)$".toList, ⟨fun _ => noMatch 0⟩, "https://$1".toList⟩] }
    else .error "EOF"
  Compile := fun pattern =>
    if pattern = "^http://(.+)$".toList then .ok pcreHttpAny else .error "unsupported pattern"

/-- The compiled pattern `^lit(grp)`, for literal texts `lit` and `grp` without
metacharacters: it matches the subjects that start with `lit` followed by `grp`;
group 1 is `grp`. -/
def pcreLiteralGroup (lit grp : GoString) : Regexp where
  MatcherString := fun subject =>
    if strings.HasPrefix subject (lit ++ grp) then
      { Matches := true, Groups := 1,
        GroupString := fun k => if k = 0 then lit ++ grp else if k = 1 then grp else [] }
    else noMatch 1

/-- The compiled pattern `^http://([^/]+)/(.*)$`: the subject is `http://`, a non-empty
text without `/` (group 1), a `/`, and a text without a newline (group 2), optionally
followed by one final newline. -/
def pcreHostPath : Regexp where
  MatcherString := fun subject =>
    if strings.HasPrefix subject "http://".toList then
      let rest := subject.drop 7
      let host := rest.takeWhile (fun c => c != '/')
      let after := rest.dropWhile (fun c => c != '/')
      let path := if (after.drop 1).getLast? = some '\n' then (after.drop 1).dropLast
        else after.drop 1
      if host ≠ [] ∧ after ≠ [] ∧ '\n' ∉ path then
        { Matches := true, Groups := 2,
          GroupString := fun k =>
            if k = 0 then "http://".toList ++ host ++ '/' :: path
            else if k = 1 then host else if k = 2 then path else [] }
      else noMatch 2
    else noMatch 2

/-- The rule `from="^http://([^/]+)/(.*)$" to="https://$1/$2"`. -/
def hostPathRule : Rule where
  From_ := "^http://([^/]+)/(.*)$".toList
  From := pcreHostPath
  To := "https://$1/$2".toList

/-- The rule `from="^http://([^/]+)/(.*)$" to="$$1"`. -/
def doubleDollarRule : Rule where
  From_ := "^http://([^/]+)/(.*)$".toList
  From := pcreHostPath
  To := "$$1".toList

/-- The rule `from="^http://example\.com/(v)" to="https://example.com/$"`. -/
def trailingDollarRule : Rule where
  From_ := "^http://example\\.com/(v)".toList
  From := pcreLiteralGroup "http://example.com/".toList "v".toList
  To := "https://example.com/$".toList

/-- The replacements of `Rule.Apply` for the groups listed in `order`, one after the
other: `strings.Replace(acc, "$"+strconv.FormatInt(k, 10), matcher.GroupString(k), -1)`. -/
def replaceInOrder (matcher : Matcher) (order : List Nat) (s : GoString) : GoString :=
  order.foldl
    (fun acc (k : Nat) =>
      strings.Replace acc ('$' :: strconv.FormatInt (k : Int)) (matcher.GroupString k) (-1)) s

/-- No two consecutive `$` in the text. -/
def noDoubleDollar : GoString → Bool
  | c :: d :: rest => !(c == '$' && d == '$') && noDoubleDollar (d :: rest)
  | _ => true

/-- The rule `from="^http://example\.com/(v)" to="https://example.com/$1"`. -/
def versionRule : Rule where
  From_ := "^http://example\\.com/(v)".toList
  From := pcreLiteralGroup "http://example.com/".toList "v".toList
  To := "https://example.com/$1".toList

/-- Whether the token lies across the end of `M` and the start of `post`: some split of
the token into two non-empty parts has its first part at the end of `M` and its second
part at the start of `post`. -/
def spansBoundary (token M post : GoString) : Bool :=
  (List.range' 1 (token.length - 1)).any
    (fun i => (token.take i).isSuffixOf M && (token.drop i).isPrefixOf post)

/-! ## The string functions of the library -/

theorem hasPrefix_iff (s p : GoString) : strings.HasPrefix s p = true ↔ p <+: s := by
  unfold strings.HasPrefix
  rw [List.prefix_iff_eq_take]
  constructor
  · intro h
    simp only [Bool.and_eq_true, decide_eq_true_eq, beq_iff_eq] at h
    exact h.2.symm
  · intro h
    simp only [Bool.and_eq_true, decide_eq_true_eq, beq_iff_eq]
    refine ⟨?_, h.symm⟩
    have := congrArg List.length h
    simp only [List.length_take] at this
    omega

theorem hasSuffix_iff (s x : GoString) : strings.HasSuffix s x = true ↔ x <:+ s := by
  unfold strings.HasSuffix
  rw [List.suffix_iff_eq_drop]
  constructor
  · intro h
    simp only [Bool.and_eq_true, decide_eq_true_eq, beq_iff_eq] at h
    exact h.2.symm
  · intro h
    simp only [Bool.and_eq_true, decide_eq_true_eq, beq_iff_eq]
    refine ⟨?_, h.symm⟩
    have := congrArg List.length h
    simp only [List.length_drop] at this
    omega

theorem targetMatch_wildcard (suffix h : GoString) :
    Target.Match ⟨'*' :: '.' :: suffix⟩ h = true ↔ ('.' :: suffix) <:+ h := by
  have hp : strings.HasPrefix ('*' :: '.' :: suffix) "*.".toList = true :=
    (hasPrefix_iff _ _).mpr ⟨suffix, rfl⟩
  unfold Target.Match
  simp only [hp, if_true, List.drop_succ_cons, List.drop_zero]
  exact hasSuffix_iff h ('.' :: suffix)

theorem targetMatch_exact (t : Target) (h : GoString)
    (hne : ∀ suffix : GoString, t.Host ≠ '*' :: '.' :: suffix) :
    t.Match h = true ↔ h = t.Host := by
  have hp : strings.HasPrefix t.Host "*.".toList = false := by
    cases hq : strings.HasPrefix t.Host "*.".toList with
    | false => rfl
    | true =>
      obtain ⟨suffix, hs⟩ := (hasPrefix_iff _ _).mp hq
      exact absurd hs.symm (hne suffix)
  unfold Target.Match
  simp only [hp, Bool.false_eq_true, if_false, beq_iff_eq]
  exact eq_comm

theorem hasPrefix_eq_isPrefixOf (s p : GoString) : strings.HasPrefix s p = p.isPrefixOf s := by
  rw [Bool.eq_iff_iff, hasPrefix_iff, List.isPrefixOf_iff_prefix]

theorem replaceFirst_at_head (old new s : GoString) (h : old.isPrefixOf s = true) :
    replaceFirstOccurrence old new s = new ++ s.drop old.length := by
  unfold replaceFirstOccurrence
  simp [h]

theorem replaceFirst_cons (old new : GoString) (c : Char) (t : GoString)
    (h : old.isPrefixOf (c :: t) = false) :
    replaceFirstOccurrence old new (c :: t) = c :: replaceFirstOccurrence old new t := by
  rw [replaceFirstOccurrence]
  simp [h]

theorem replaceEveryFrom_skip (old new : GoString) :
    ∀ (s : GoString) (k : Nat),
      replaceEveryFrom old new k s = replaceEveryFrom old new 0 (s.drop k) := by
  intro s
  induction s with
  | nil => intro k; cases k <;> simp [replaceEveryFrom]
  | cons c t ih =>
    intro k
    cases k with
    | zero => simp
    | succ k => simpa [replaceEveryFrom] using ih k

theorem index_cons (old : GoString) (c : Char) (t : GoString) :
    strings.Index (c :: t) old =
      if old.isPrefixOf (c :: t) then some 0 else (strings.Index t old).map (· + 1) := by
  rw [strings.Index, hasPrefix_eq_isPrefixOf]

theorem index_nil (old : GoString) :
    strings.Index [] old = if old.isPrefixOf [] then some 0 else none := by
  rw [strings.Index, hasPrefix_eq_isPrefixOf]

/-- Where `strings.Index` finds nothing, both replacements leave the text unchanged. -/
theorem index_none (old new : GoString) :
    ∀ s : GoString, strings.Index s old = none →
      replaceFirstOccurrence old new s = s ∧ replaceEveryFrom old new 0 s = s := by
  intro s
  induction s with
  | nil =>
    intro h
    rw [index_nil] at h
    by_cases hp : old.isPrefixOf [] = true
    · simp [hp] at h
    · refine ⟨?_, rfl⟩
      unfold replaceFirstOccurrence
      simp [hp]
  | cons c t ih =>
    intro h
    rw [index_cons] at h
    by_cases hp : old.isPrefixOf (c :: t) = true
    · simp [hp] at h
    · have hp2 : old.isPrefixOf (c :: t) = false := Bool.eq_false_iff.mpr hp
      simp only [hp2, Bool.false_eq_true, if_false, Option.map_eq_none'] at h
      obtain ⟨h1, h2⟩ := ih h
      refine ⟨?_, ?_⟩
      · rw [replaceFirst_cons old new c t hp2, h1]
      · simp only [replaceEveryFrom, hp2, Bool.false_eq_true, if_false, h2]

/-- Where `strings.Index` finds `old` at offset `j`: the text splits there, the first
occurrence is the one at `j`, and the replacement of every occurrence goes on after it. -/
theorem index_some (old new : GoString) :
    ∀ (s : GoString) (j : Nat), strings.Index s old = some j →
      s = s.take j ++ old ++ s.drop (j + old.length) ∧
      replaceFirstOccurrence old new s = s.take j ++ new ++ s.drop (j + old.length) ∧
      (old ≠ [] → replaceEveryFrom old new 0 s =
        s.take j ++ new ++ replaceEveryFrom old new 0 (s.drop (j + old.length))) := by
  intro s
  induction s with
  | nil =>
    intro j h
    rw [index_nil] at h
    by_cases hp : old.isPrefixOf [] = true
    · have hold : old = [] := by
        have := List.isPrefixOf_iff_prefix.mp hp
        exact List.prefix_nil.mp this
      subst hold
      simp only [hp, if_true, Option.some.injEq] at h
      subst h
      refine ⟨by simp, ?_, fun hne => absurd rfl hne⟩
      rw [replaceFirst_at_head _ _ _ hp]
      simp
    · simp [hp] at h
  | cons c t ih =>
    intro j h
    rw [index_cons] at h
    by_cases hp : old.isPrefixOf (c :: t) = true
    · simp only [hp, if_true, Option.some.injEq] at h
      subst h
      obtain ⟨r, hr⟩ := List.isPrefixOf_iff_prefix.mp hp
      have hdrop : (c :: t).drop (0 + old.length) = r := by
        rw [← hr]; simp
      refine ⟨?_, ?_, ?_⟩
      · rw [hdrop]; simpa using hr.symm
      · rw [replaceFirst_at_head _ _ _ hp]; simp
      · intro hne
        have hlen : old.length = (old.length - 1) + 1 := by
          have : 0 < old.length := List.length_pos.mpr hne
          omega
        simp only [replaceEveryFrom, hp, if_true, List.take_zero, List.nil_append, Nat.zero_add]
        rw [replaceEveryFrom_skip old new t (old.length - 1)]
        conv_rhs => rw [hlen, List.drop_succ_cons]
    · have hp2 : old.isPrefixOf (c :: t) = false := Bool.eq_false_iff.mpr hp
      simp only [hp2, Bool.false_eq_true, if_false, Option.map_eq_some'] at h
      obtain ⟨j1, hj1, rfl⟩ := h
      obtain ⟨h1, h2, h3⟩ := ih j1 hj1
      have hd : (c :: t).drop (j1 + 1 + old.length) = t.drop (j1 + old.length) := by
        have : j1 + 1 + old.length = (j1 + old.length) + 1 := by omega
        rw [this, List.drop_succ_cons]
      refine ⟨?_, ?_, ?_⟩
      · rw [hd, List.take_succ_cons]
        simp only [List.cons_append]
        rw [List.append_assoc] at h1
        exact congrArg (c :: ·) (by simpa using h1)
      · rw [replaceFirst_cons old new c t hp2, h2, hd, List.take_succ_cons]
        simp
      · intro hne
        simp only [replaceEveryFrom, hp2, Bool.false_eq_true, if_false]
        rw [h3 hne, hd, List.take_succ_cons]
        simp

/-- The first occurrence, positionally: when `old` stands after `pre` and at no earlier
offset, it is that instance which is replaced. -/
theorem replaceFirst_split (old new post : GoString) :
    ∀ pre : GoString,
      (∀ k : Nat, k < pre.length → ¬ old <+: (pre ++ old ++ post).drop k) →
      replaceFirstOccurrence old new (pre ++ old ++ post) = pre ++ new ++ post := by
  intro pre
  induction pre with
  | nil =>
    intro _
    have hp : old.isPrefixOf ([] ++ old ++ post) = true :=
      List.isPrefixOf_iff_prefix.mpr ⟨post, by simp⟩
    rw [replaceFirst_at_head _ _ _ hp]
    simp
  | cons c p ih =>
    intro hfirst
    have h0 : old.isPrefixOf (c :: (p ++ old ++ post)) = false := by
      apply Bool.eq_false_iff.mpr
      intro hp
      exact hfirst 0 (by simp) (by simpa using List.isPrefixOf_iff_prefix.mp hp)
    have hrest : ∀ k : Nat, k < p.length → ¬ old <+: (p ++ old ++ post).drop k := by
      intro k hk
      have := hfirst (k + 1) (by simpa using hk)
      simpa using this
    simp only [List.cons_append]
    rw [replaceFirst_cons old new c _ h0, ih hrest]

theorem index_nil_of_ne (old : GoString) (hne : old ≠ []) : strings.Index [] old = none := by
  rw [index_nil]
  cases old with
  | nil => exact absurd rfl hne
  | cons a r => simp [List.isPrefixOf]

theorem index_some_drop_length (old : GoString) (hne : old ≠ []) (s : GoString) (j : Nat)
    (h : strings.Index s old = some j) :
    (s.drop (j + old.length)).length < s.length := by
  have hs : s ≠ [] := by
    intro hs
    subst hs
    rw [index_nil_of_ne old hne] at h
    exact Option.noConfusion h
  have h1 : 0 < s.length := List.length_pos.mpr hs
  have h2 : 0 < old.length := List.length_pos.mpr hne
  rw [List.length_drop]
  omega

/-- Replacing a non-empty token by itself changes nothing. -/
theorem replaceEveryFrom_self (old : GoString) (hne : old ≠ []) :
    ∀ (n : Nat) (s : GoString), s.length ≤ n → replaceEveryFrom old old 0 s = s := by
  intro n
  induction n with
  | zero =>
    intro s hs
    have : s = [] := List.length_eq_zero.mp (Nat.le_zero.mp hs)
    subst this
    rfl
  | succ n ih =>
    intro s hs
    cases hi : strings.Index s old with
    | none => exact (index_none old old s hi).2
    | some j =>
      obtain ⟨h1, _, h3⟩ := index_some old old s j hi
      have hlt := index_some_drop_length old hne s j hi
      rw [h3 hne, ih _ (by omega)]
      exact h1.symm

theorem replaceFirst_self (old s : GoString) : replaceFirstOccurrence old old s = s := by
  cases hi : strings.Index s old with
  | none => exact (index_none old old s hi).1
  | some j =>
    obtain ⟨h1, h2, _⟩ := index_some old old s j hi
    rw [h2]
    exact h1.symm

/-- The two loops of `strings.Replace` with no limit: counting the instances and then
replacing that many is replacing every occurrence. -/
theorem replaceLoop_countLoop (old new : GoString) (hne : old ≠ []) :
    ∀ (fuel : Nat) (s : GoString) (i : Nat), s.length ≤ fuel →
      strings.replaceLoop old new (strings.countLoop old fuel s) i s =
        replaceEveryFrom old new 0 s := by
  have hlen : ¬ old.length = 0 := fun h => hne (List.length_eq_zero.mp h)
  intro fuel
  induction fuel with
  | zero =>
    intro s i hs
    have : s = [] := List.length_eq_zero.mp (Nat.le_zero.mp hs)
    subst this
    rfl
  | succ fuel ih =>
    intro s i hs
    cases hi : strings.Index s old with
    | none =>
      simp only [strings.countLoop, hi, strings.replaceLoop]
      exact (index_none old new s hi).2.symm
    | some j =>
      obtain ⟨_, _, h3⟩ := index_some old new s j hi
      have hlt := index_some_drop_length old hne s j hi
      simp only [strings.countLoop, hi, strings.replaceLoop, hlen, if_false]
      rw [ih _ (i + 1) (by omega), h3 hne]

theorem countLoop_eq_zero (old : GoString) (hne : old ≠ []) (s : GoString)
    (h : strings.countLoop old s.length s = 0) : strings.Index s old = none := by
  cases s with
  | nil => exact index_nil_of_ne old hne
  | cons c t =>
    simp only [List.length_cons, strings.countLoop] at h
    cases hi : strings.Index (c :: t) old with
    | none => rfl
    | some j => simp [hi] at h

/-- The call `strings.Replace(s, old, new, -1)` for a non-empty `old` replaces every occurrence. -/
theorem replace_all_eq (s old new : GoString) (hne : old ≠ []) :
    strings.Replace s old new (-1) = replaceEveryOccurrence old new s := by
  have hlen : ¬ old.length = 0 := fun h => hne (List.length_eq_zero.mp h)
  unfold strings.Replace replaceEveryOccurrence
  by_cases heq : old = new
  · subst heq
    simp only [true_or, if_true]
    exact (replaceEveryFrom_self old hne s.length s (le_refl _)).symm
  · have h1 : ¬ (old = new ∨ (-1 : Int) = 0) := by
      rintro (h | h)
      · exact heq h
      · exact absurd h (by decide)
    simp only [h1, if_false, strings.Count, hlen]
    by_cases hm : strings.countLoop old s.length s = 0
    · simp only [hm, if_true]
      exact ((index_none old new s (countLoop_eq_zero old hne s hm)).2).symm
    · have hneg : ((-1 : Int) < 0 ∨ ((strings.countLoop old s.length s : Nat) : Int) < -1) :=
        Or.inl (by decide)
      simp only [hm, if_false, hneg, if_true]
      exact replaceLoop_countLoop old new hne s.length s 0 (le_refl _)

/-- The call `strings.Replace(s, old, new, 1)` replaces the first occurrence. -/
theorem replace_one_eq (s old new : GoString) :
    strings.Replace s old new 1 = replaceFirstOccurrence old new s := by
  unfold strings.Replace
  by_cases heq : old = new
  · subst heq
    simp only [true_or, if_true]
    exact (replaceFirst_self old s).symm
  · have h1 : ¬ (old = new ∨ (1 : Int) = 0) := by
      rintro (h | h)
      · exact heq h
      · exact absurd h (by decide)
    simp only [h1, if_false]
    by_cases hl : old.length = 0
    · have hold : old = [] := List.length_eq_zero.mp hl
      subst hold
      have hc : ¬ ((1 : Int) < 0 ∨ ((s.length + 1 : Nat) : Int) < 1) := by
        omega
      simp only [strings.Count, List.length_nil, if_true, Nat.add_one_ne_zero, if_false, hc]
      rw [replaceFirst_at_head [] new s (by simp [List.isPrefixOf])]
      simp [strings.replaceLoop]
    · have hne : old ≠ [] := fun h => hl (by rw [h]; rfl)
      simp only [strings.Count, hl, if_false]
      by_cases hm : strings.countLoop old s.length s = 0
      · simp only [hm, if_true]
        exact ((index_none old new s (countLoop_eq_zero old hne s hm)).1).symm
      · have hc : ¬ ((1 : Int) < 0 ∨ ((strings.countLoop old s.length s : Nat) : Int) < 1) := by
          omega
        simp only [hm, if_false, hc]
        have h1 : (1 : Int).toNat = 1 := rfl
        rw [h1]
        simp only [strings.replaceLoop, hl, if_false]
        cases hi : strings.Index s old with
        | none => exact ((index_none old new s hi).1).symm
        | some j => exact ((index_some old new s j hi).2.1).symm

theorem formatInt_nat (k : Nat) : strconv.FormatInt (k : Int) = (Nat.repr k).toList := by
  unfold strconv.FormatInt
  have : ¬ ((k : Int) < 0) := by omega
  simp only [this, if_false, Int.toNat_ofNat]
  rfl

theorem groupLoop_eq (matcher : Matcher) :
    ∀ (k group : Nat) (newUrl : GoString),
      Rule.groupLoop matcher k group newUrl =
        (List.range' group k).foldl
          (fun acc g => replaceEveryOccurrence (placeholder g) (matcher.GroupString g) acc)
          newUrl := by
  intro k
  induction k with
  | zero => intro group newUrl; rfl
  | succ k ih =>
    intro group newUrl
    simp only [Rule.groupLoop, List.range'_succ, List.foldl_cons]
    rw [ih, formatInt_nat, replace_all_eq _ _ _ (List.cons_ne_nil _ _)]
    rfl

/-! ## The loops of `RuleFile.Apply` and `RuleSet.Apply` -/

theorem targetsLoop_eq_true_iff (host : GoString) (ts : List Target) :
    RuleFile.targetsLoop host ts = true ↔ ∃ t ∈ ts, t.Match host = true := by
  induction ts with
  | nil => simp [RuleFile.targetsLoop]
  | cons t rest ih =>
    by_cases ht : t.Match host = true
    · simp [RuleFile.targetsLoop, ht]
    · simp [RuleFile.targetsLoop, ht, ih]

theorem targetsLoop_eq_false_iff (host : GoString) (ts : List Target) :
    RuleFile.targetsLoop host ts = false ↔ ∀ t ∈ ts, t.Match host = false := by
  induction ts with
  | nil => simp [RuleFile.targetsLoop]
  | cons t rest ih =>
    by_cases ht : t.Match host = true
    · simp [RuleFile.targetsLoop, ht]
    · simp [RuleFile.targetsLoop, ht, ih]

theorem exclusionsLoop_eq_true_iff (original : GoString) (es : List Exclusion) :
    RuleFile.exclusionsLoop original es = true ↔ ∃ e ∈ es, e.Match original = true := by
  induction es with
  | nil => simp [RuleFile.exclusionsLoop]
  | cons e rest ih =>
    by_cases he : e.Match original = true
    · simp [RuleFile.exclusionsLoop, he]
    · simp [RuleFile.exclusionsLoop, he, ih]

theorem exclusionsLoop_eq_false_iff (original : GoString) (es : List Exclusion) :
    RuleFile.exclusionsLoop original es = false ↔ ∀ e ∈ es, e.Match original = false := by
  induction es with
  | nil => simp [RuleFile.exclusionsLoop]
  | cons e rest ih =>
    by_cases he : e.Match original = true
    · simp [RuleFile.exclusionsLoop, he]
    · simp [RuleFile.exclusionsLoop, he, ih]

theorem ruleApply_snd (r : Rule) (url : GoString) :
    (r.Apply url).2 = (r.From.MatcherString url).Matches := by
  unfold Rule.Apply
  cases h : (r.From.MatcherString url).Matches <;> simp [h]

theorem rulesLoop_cons (original : GoString) (rule : Rule) (rest : List Rule) :
    RuleFile.rulesLoop original (rule :: rest) =
      if (rule.From.MatcherString original).Matches then (true, (rule.Apply original).1, none)
      else RuleFile.rulesLoop original rest := by
  rw [← ruleApply_snd]
  simp only [RuleFile.rulesLoop]
  cases h : (rule.Apply original).2 <;> simp

theorem rulesLoop_first (original : GoString) (pre post : List Rule) (rule : Rule)
    (hpre : ∀ r ∈ pre, (r.From.MatcherString original).Matches = false)
    (hm : (rule.From.MatcherString original).Matches = true) :
    RuleFile.rulesLoop original (pre ++ rule :: post) = (true, (rule.Apply original).1, none) := by
  induction pre with
  | nil => simp [rulesLoop_cons, hm]
  | cons r rest ih =>
    have hr := hpre r (List.mem_cons_self _ _)
    simp only [List.cons_append, rulesLoop_cons, hr]
    exact ih (fun r1 h1 => hpre r1 (List.mem_cons_of_mem _ h1))

theorem rulesLoop_none (original : GoString) (rules : List Rule)
    (hno : ∀ r ∈ rules, (r.From.MatcherString original).Matches = false) :
    RuleFile.rulesLoop original rules = (false, original, none) := by
  induction rules with
  | nil => rfl
  | cons r rest ih =>
    have hr := hno r (List.mem_cons_self _ _)
    simp only [rulesLoop_cons, hr]
    exact ih (fun r1 h1 => hno r1 (List.mem_cons_of_mem _ h1))

/-- With an explicit (non-empty) host the bundle does not parse the URL. -/
theorem ruleFileApply_explicit (L : Stdlib) (r : RuleFile) (original host : GoString)
    (hh : host ≠ []) :
    RuleFile.Apply L r original host =
      if RuleFile.targetsLoop host r.Targets then
        if RuleFile.exclusionsLoop original r.Exclusions then (false, original, none)
        else RuleFile.rulesLoop original r.Rules
      else (false, original, none) := by
  have hlen : ¬ host.length ≤ 0 := by
    cases host with
    | nil => exact absurd rfl hh
    | cons c t => simp
  unfold RuleFile.Apply
  simp only [hlen, if_false]
  cases RuleFile.targetsLoop host r.Targets <;> simp

/-- The bundle result once the host it matches against is known. -/
theorem ruleFileApply_resolved (L : Stdlib) (r : RuleFile) (original host resolved : GoString)
    (hres : HostResolvesTo L original host resolved) :
    RuleFile.Apply L r original host =
      if RuleFile.targetsLoop resolved r.Targets then
        if RuleFile.exclusionsLoop original r.Exclusions then (false, original, none)
        else RuleFile.rulesLoop original r.Rules
      else (false, original, none) := by
  rcases hres with ⟨hne, rfl⟩ | ⟨rfl, p, hp, rfl⟩
  · exact ruleFileApply_explicit L r original _ hne
  · unfold RuleFile.Apply
    simp only [List.length_nil, le_refl, if_true, hp]
    cases RuleFile.targetsLoop (strings.ToLower L.caseTable p.Host) r.Targets <;> simp

/-- A result of the rules loop that is not applied is `(false, original, nil)`. -/
theorem rulesLoop_not_applied (original : GoString) (rules : List Rule)
    (h : (RuleFile.rulesLoop original rules).1 = false) :
    RuleFile.rulesLoop original rules = (false, original, none) := by
  induction rules with
  | nil => rfl
  | cons r rest ih =>
    rw [rulesLoop_cons] at h ⊢
    cases hm : (r.From.MatcherString original).Matches with
    | true => simp [hm] at h
    | false =>
      simp only [hm] at h ⊢
      exact ih h

theorem ruleSetApply_explicit (L : Stdlib) (rs : RuleSet) (original host : GoString)
    (hh : host ≠ []) :
    RuleSet.Apply L rs original host = RuleSet.bundlesLoop L original host rs := by
  have hlen : ¬ host.length ≤ 0 := by
    cases host with
    | nil => exact absurd rfl hh
    | cons c t => simp
  unfold RuleSet.Apply
  simp only [hlen, if_false]

theorem bundlesLoop_eq_find (L : Stdlib) (original host : GoString) (rs : List RuleFile) :
    RuleSet.bundlesLoop L original host rs =
      ((rs.map (fun b => RuleFile.Apply L b original host)).find? Decisive).getD
        (false, original, none) := by
  induction rs with
  | nil => rfl
  | cons b rest ih =>
    simp only [RuleSet.bundlesLoop, List.map_cons, List.find?_cons]
    rcases hres : RuleFile.Apply L b original host with ⟨applied, newUrl, err⟩
    by_cases hd : (applied || err.isSome) = true
    · simp [Decisive, hd]
    · simp only [Decisive, hd]
      simpa [Decisive] using ih

/-! ## Claims -/

/-- C5: when the pattern of a rule does not match the URL, `Rule.Apply` returns the URL
unchanged together with `applied = false`. -/
theorem ruleApply_no_match (r : Rule) (u : GoString)
    (hno : (r.From.MatcherString u).Matches = false) :
    r.Apply u = (u, false) := by
  unfold Rule.Apply
  simp [hno]

/-- Witness of C5: the rule `^http://(.+)$` on an `https` URL. -/
theorem ruleApply_no_match_witness :
    upgradeRule.Apply "https://example.com/".toList = ("https://example.com/".toList, false) :=
  ruleApply_no_match upgradeRule "https://example.com/".toList (by decide)

/-- C1: when some exclusion of the bundle matches the URL, `RuleFile.Apply` returns
`applied = false` and the URL itself, whatever the host, the targets and the rules. -/
theorem ruleFileApply_excluded (L : Stdlib) (b : RuleFile) (u h : GoString)
    (hex : ∃ e ∈ b.Exclusions, e.Match u = true) :
    (RuleFile.Apply L b u h).1 = false ∧ (RuleFile.Apply L b u h).2.1 = u := by
  have hloop := (exclusionsLoop_eq_true_iff u b.Exclusions).mpr hex
  unfold RuleFile.Apply
  simp only [hloop, if_true]
  split
  · exact ⟨rfl, rfl⟩
  · split <;> exact ⟨rfl, rfl⟩

/-- Witness of C1: the URL is excluded although a target matches the host and both
rules of the bundle match the URL. -/
theorem ruleFileApply_excluded_witness :
    (∃ t ∈ exampleBundle.Targets, t.Match "example.com".toList = true) ∧
    (∀ r ∈ exampleBundle.Rules,
      (r.From.MatcherString "http://example.com/private/a".toList).Matches = true) ∧
    (RuleFile.Apply sampleStdlib exampleBundle "http://example.com/private/a".toList
        "example.com".toList).1 = false ∧
    (RuleFile.Apply sampleStdlib exampleBundle "http://example.com/private/a".toList
        "example.com".toList).2.1 = "http://example.com/private/a".toList :=
  ⟨by decide, by decide,
    ruleFileApply_excluded sampleStdlib exampleBundle "http://example.com/private/a".toList
      "example.com".toList ⟨privateExclusion, List.mem_singleton.mpr rfl, by decide⟩⟩

/-- C2: in a bundle whose targets match the host and none of whose exclusions match
the URL, the first rule in declaration order whose pattern matches decides the result:
`RuleFile.Apply` returns `(true, r, nil)` with `r` the rewrite of that rule, whatever
the later rules are. The host is the explicit one, or the one derived from the URL
when the argument is empty. -/
theorem ruleFileApply_first_rule (L : Stdlib) (b : RuleFile) (u h host : GoString)
    (pre post : List Rule) (rule : Rule)
    (hres : HostResolvesTo L u h host)
    (htgt : ∃ t ∈ b.Targets, t.Match host = true)
    (hex : ∀ e ∈ b.Exclusions, e.Match u = false)
    (hrules : b.Rules = pre ++ rule :: post)
    (hpre : ∀ r ∈ pre, (r.From.MatcherString u).Matches = false)
    (hm : (rule.From.MatcherString u).Matches = true) :
    RuleFile.Apply L b u h = (true, (rule.Apply u).1, none) := by
  rw [ruleFileApply_resolved L b u h host hres,
    (targetsLoop_eq_true_iff host b.Targets).mpr htgt,
    (exclusionsLoop_eq_false_iff u b.Exclusions).mpr hex, hrules,
    rulesLoop_first u pre post rule hpre hm]
  simp

/-- Witness of C2: both rules of the bundle match the URL and the rewrite of the
first one, `secureRule`, is returned. -/
theorem ruleFileApply_first_rule_witness :
    (upgradeRule.From.MatcherString "http://example.com/a".toList).Matches = true ∧
    RuleFile.Apply sampleStdlib exampleBundle "http://example.com/a".toList "example.com".toList
      = (true, (secureRule.Apply "http://example.com/a".toList).1, none) ∧
    (secureRule.Apply "http://example.com/a".toList).1 = "https://secure.example.com/a".toList :=
  ⟨by decide,
    ruleFileApply_first_rule sampleStdlib exampleBundle "http://example.com/a".toList
      "example.com".toList "example.com".toList [] [upgradeRule] secureRule
      (Or.inl ⟨by decide, rfl⟩) ⟨⟨"example.com".toList⟩, List.mem_cons_self _ _, by decide⟩
      (by intro e he; rw [List.mem_singleton.mp he]; decide) rfl (by simp) (by decide),
    by decide⟩

/-- C3: with a non-empty host the corpus returns the result of the first bundle, in
corpus order, whose `Apply` reports `applied = true` or an error, and `(false, u, nil)`
when there is none; so when no rule of the first of two bundles matches the URL, the
result of the corpus is the result of the second bundle. -/
theorem ruleSetApply_first_decisive (L : Stdlib) (rs : RuleSet) (u h : GoString)
    (hh : h ≠ []) :
    RuleSet.Apply L rs u h =
        ((rs.map (fun b => RuleFile.Apply L b u h)).find? Decisive).getD (false, u, none) ∧
    ∀ b1 b2 : RuleFile, rs = [b1, b2] →
      (∀ r ∈ b1.Rules, (r.From.MatcherString u).Matches = false) →
      RuleSet.Apply L rs u h = RuleFile.Apply L b2 u h := by
  refine ⟨by rw [ruleSetApply_explicit L rs u h hh, bundlesLoop_eq_find], ?_⟩
  intro b1 b2 hrs hno
  subst hrs
  have h1 : RuleFile.Apply L b1 u h = (false, u, none) := by
    rw [ruleFileApply_explicit L b1 u h hh, rulesLoop_none u b1.Rules hno]
    cases RuleFile.targetsLoop h b1.Targets <;>
      cases RuleFile.exclusionsLoop u b1.Exclusions <;> simp
  have h2 : (RuleFile.Apply L b2 u h).1 = false →
      RuleFile.Apply L b2 u h = (false, u, none) := by
    rw [ruleFileApply_explicit L b2 u h hh]
    cases RuleFile.targetsLoop h b2.Targets <;>
      cases RuleFile.exclusionsLoop u b2.Exclusions <;> simp
    exact rulesLoop_not_applied u b2.Rules
  have h3 : (RuleFile.Apply L b2 u h).2.2 = none := by
    rw [ruleFileApply_explicit L b2 u h hh]
    cases RuleFile.targetsLoop h b2.Targets <;>
      cases RuleFile.exclusionsLoop u b2.Exclusions <;> simp
    induction b2.Rules with
    | nil => rfl
    | cons r rest ih =>
      rw [rulesLoop_cons]
      cases (r.From.MatcherString u).Matches <;> simp [ih]
  rw [ruleSetApply_explicit L _ u h hh]
  simp only [RuleSet.bundlesLoop, h1]
  rcases hres : RuleFile.Apply L b2 u h with ⟨applied, newUrl, err⟩
  rw [hres] at h2 h3
  simp only at h3
  subst h3
  cases applied with
  | true => simp
  | false => simpa using (h2 rfl).symm

/-- Witness of C3: both bundles match the host `example.com`, only the rule of the
second bundle matches the URL, and the rewrite of the second bundle is returned. -/
theorem ruleSetApply_first_decisive_witness :
    RuleFile.targetsLoop "example.com".toList legacyBundle.Targets = true ∧
    RuleFile.targetsLoop "example.com".toList exampleBundle.Targets = true ∧
    RuleSet.Apply sampleStdlib [legacyBundle, exampleBundle] "http://example.com/a".toList
        "example.com".toList
      = RuleFile.Apply sampleStdlib exampleBundle "http://example.com/a".toList
        "example.com".toList ∧
    RuleFile.Apply sampleStdlib exampleBundle "http://example.com/a".toList "example.com".toList
      = (true, "https://secure.example.com/a".toList, none) :=
  ⟨by decide, by decide,
    (ruleSetApply_first_decisive sampleStdlib [legacyBundle, exampleBundle]
      "http://example.com/a".toList "example.com".toList (by decide)).2
      legacyBundle exampleBundle rfl
      (by intro r hr; rw [List.mem_singleton.mp hr]; decide),
    by decide⟩

/-- C10: with a non-empty host that no target of the bundle matches, `RuleFile.Apply`
returns `(false, u, nil)`; the exclusions and the rules of the bundle play no part. -/
theorem ruleFileApply_no_target (L : Stdlib) (b : RuleFile) (u h : GoString)
    (hh : h ≠ []) (hno : ∀ t ∈ b.Targets, t.Match h = false) :
    RuleFile.Apply L b u h = (false, u, none) := by
  rw [ruleFileApply_explicit L b u h hh, (targetsLoop_eq_false_iff h b.Targets).mpr hno]
  simp

/-- Witness of C10: the host `example.org` is no target of the bundle, whose rules
would otherwise rewrite the URL. -/
theorem ruleFileApply_no_target_witness :
    (upgradeRule.From.MatcherString "http://example.org/a".toList).Matches = true ∧
    RuleFile.Apply sampleStdlib exampleBundle "http://example.org/a".toList "example.org".toList
      = (false, "http://example.org/a".toList, none) :=
  ⟨by decide,
    ruleFileApply_no_target sampleStdlib exampleBundle "http://example.org/a".toList
      "example.org".toList (by decide)
      (by
        intro t ht
        simp only [exampleBundle, List.mem_cons, List.mem_singleton, List.not_mem_nil,
          or_false] at ht
        rcases ht with rfl | rfl <;> decide)⟩

/-- C7: a target whose pattern begins with `*.` matches exactly the hosts that have the
pattern without its leading `*` (that is `.suffix`) as a suffix; any other target
matches exactly the host equal to its pattern. So `*.example.com` matches
`a.example.com` and does not match `badexample.com`. -/
theorem targetMatch_spec (t : Target) (h : GoString) :
    (∀ suffix : GoString, t.Host = '*' :: '.' :: suffix →
      (t.Match h = true ↔ ∃ pre : GoString, h = pre ++ '.' :: suffix)) ∧
    ((∀ suffix : GoString, t.Host ≠ '*' :: '.' :: suffix) → (t.Match h = true ↔ h = t.Host)) ∧
    Target.Match ⟨"*.example.com".toList⟩ "a.example.com".toList = true ∧
    Target.Match ⟨"*.example.com".toList⟩ "badexample.com".toList = false := by
  refine ⟨?_, targetMatch_exact t h, by decide, by decide⟩
  intro suffix hs
  obtain ⟨host⟩ := t
  simp only at hs
  subst hs
  rw [targetMatch_wildcard]
  constructor
  · rintro ⟨pre, hpre⟩
    exact ⟨pre, hpre.symm⟩
  · rintro ⟨pre, hpre⟩
    exact ⟨pre, hpre.symm⟩

/-- C6, as stated, fails: the target built from `*.example.com` does not match the
bare host `example.com`, which the claim lists among the matching hosts. -/
theorem targetMatch_bare_host_counterexample :
    ¬ (((Target.Initialize sampleStdlib ⟨"*.example.com".toList⟩).1).Match
          "example.com".toList = true ↔
        ("example.com".toList = "example.com".toList ∨
          ".example.com".toList <:+ "example.com".toList)) := by
  intro h
  have hfalse : ((Target.Initialize sampleStdlib ⟨"*.example.com".toList⟩).1).Match
      "example.com".toList = false := by decide
  rw [hfalse] at h
  exact Bool.false_ne_true (h.mpr (Or.inl rfl))

/-- C6, amended: for every host `h`, the target built from `*.example.com` (after
`Initialize`, for any Unicode case table) matches `h` if and only if `h` ends with
`.example.com`. -/
theorem targetMatch_example_wildcard (L : Stdlib) (h : GoString) :
    ((Target.Initialize L ⟨"*.example.com".toList⟩).1).Match h = true ↔
      ".example.com".toList <:+ h := by
  have hinit : (Target.Initialize L ⟨"*.example.com".toList⟩).1 =
      ⟨'*' :: '.' :: "example.com".toList⟩ := rfl
  rw [hinit]
  exact targetMatch_wildcard "example.com".toList h

/-- C4: when the pattern of a rule matches the URL with full match text `g0` and
capture texts `g1..gN`, `Rule.Apply` returns `(r, true)` where `r` is the URL with the
first occurrence of `g0` replaced by the template `To` and then, for `k = 1..N` in
increasing order, every occurrence of the token `$k` replaced by `gk`. -/
theorem ruleApply_match (r : Rule) (u : GoString)
    (hm : (r.From.MatcherString u).Matches = true) :
    r.Apply u =
      (specRewrite (r.From.MatcherString u).GroupString (r.From.MatcherString u).Groups r.To u,
        true) := by
  unfold Rule.Apply
  simp only [hm, Bool.not_true, Bool.false_eq_true, if_false]
  rw [groupLoop_eq, replace_one_eq]
  rfl

/-- Witness of C4: pattern `^http://(.+)$`, template `https://$1`, input
`http://example.com/path` give `(https://example.com/path, true)`. -/
theorem ruleApply_match_witness :
    upgradeRule.Apply "http://example.com/path".toList =
      ("https://example.com/path".toList, true) :=
  (ruleApply_match upgradeRule "http://example.com/path".toList (by decide)).trans (by decide)

/-- C8 at a failing input: the target declared as `Example.COM` is lower-cased by
`Initialize`, and `Match` compares the candidate as it is given, so the candidate
`EXAMPLE.com` is not matched although its lower-case form is; passed explicitly to
`RuleFile.Apply` and `RuleSet.Apply` the host `EXAMPLE.com` yields no rewrite, while
the same URL with the host derived from it (and lower-cased there) is rewritten. -/
theorem targetMatch_mixed_case_host :
    ((Target.Initialize sampleStdlib ⟨"Example.COM".toList⟩).1).Host = "example.com".toList ∧
    ((Target.Initialize sampleStdlib ⟨"Example.COM".toList⟩).1).Match "EXAMPLE.com".toList
      = false ∧
    ((Target.Initialize sampleStdlib ⟨"Example.COM".toList⟩).1).Match
      (strings.ToLower sampleStdlib.caseTable "EXAMPLE.com".toList) = true ∧
    RuleFile.Apply sampleStdlib mixedCaseBundle "http://EXAMPLE.com/a".toList
      "EXAMPLE.com".toList = (false, "http://EXAMPLE.com/a".toList, none) ∧
    RuleSet.Apply sampleStdlib [mixedCaseBundle] "http://EXAMPLE.com/a".toList
      "EXAMPLE.com".toList = (false, "http://EXAMPLE.com/a".toList, none) ∧
    RuleFile.Apply sampleStdlib mixedCaseBundle "http://EXAMPLE.com/a".toList []
      = (true, "https://EXAMPLE.com/a".toList, none) := by
  refine ⟨by decide, by decide, by decide, by decide, by decide, by decide⟩

/-- C9 at a failing input: the pattern has ten capture groups, the template is
`https://$10/` and group 10 of the match is `j`, yet `Rule.Apply` returns
`https://a0/`, the text of group 1 followed by the character `0`, and not `https://j/`. -/
theorem ruleApply_dollar_ten :
    (pcreTenGroups.MatcherString "http://abcdefghij/".toList).Matches = true ∧
    (pcreTenGroups.MatcherString "http://abcdefghij/".toList).Groups = 10 ∧
    (pcreTenGroups.MatcherString "http://abcdefghij/".toList).GroupString 1 = "a".toList ∧
    (pcreTenGroups.MatcherString "http://abcdefghij/".toList).GroupString 10 = "j".toList ∧
    tenGroupsRule.Apply "http://abcdefghij/".toList = ("https://a0/".toList, true) ∧
    tenGroupsRule.Apply "http://abcdefghij/".toList ≠ ("https://j/".toList, true) := by
  refine ⟨by decide, by decide, by decide, by decide, by decide, by decide⟩

/-! ## Results of the engine: shape and errors -/

theorem rulesLoop_shape (original : GoString) (rules : List Rule) :
    RuleFile.rulesLoop original rules = (false, original, none) ∨
      ∃ newUrl : GoString, RuleFile.rulesLoop original rules = (true, newUrl, none) := by
  induction rules with
  | nil => exact Or.inl rfl
  | cons r rest ih =>
    rw [rulesLoop_cons]
    cases (r.From.MatcherString original).Matches with
    | true => exact Or.inr ⟨_, rfl⟩
    | false => simpa using ih

/-- Once the host is resolved, a bundle returns `(false, original, nil)` or
`(true, newUrl, nil)`. -/
theorem ruleFileApply_shape_resolved (L : Stdlib) (b : RuleFile)
    (original host resolved : GoString) (hres : HostResolvesTo L original host resolved) :
    RuleFile.Apply L b original host = (false, original, none) ∨
      ∃ newUrl : GoString, RuleFile.Apply L b original host = (true, newUrl, none) := by
  rw [ruleFileApply_resolved L b original host resolved hres]
  cases RuleFile.targetsLoop resolved b.Targets with
  | false => exact Or.inl rfl
  | true =>
    cases RuleFile.exclusionsLoop original b.Exclusions with
    | true => exact Or.inl rfl
    | false => simpa using rulesLoop_shape original b.Rules

/-- A bundle called with an empty host on a URL that does not parse. -/
theorem ruleFileApply_parse_error (L : Stdlib) (b : RuleFile) (original : GoString)
    (e : Error) (hp : L.Parse original = .error e) :
    RuleFile.Apply L b original [] = (false, original, some e) := by
  unfold RuleFile.Apply
  simp [hp]

/-- The host is resolved unless it is empty and the URL does not parse. -/
theorem hostResolves_or_error (L : Stdlib) (original host : GoString) :
    (∃ resolved : GoString, HostResolvesTo L original host resolved) ∨
      (host = [] ∧ ∃ e : Error, L.Parse original = .error e) := by
  cases host with
  | cons c t => exact Or.inl ⟨c :: t, Or.inl ⟨List.cons_ne_nil _ _, rfl⟩⟩
  | nil =>
    cases hp : L.Parse original with
    | error e => exact Or.inr ⟨rfl, e, rfl⟩
    | ok p => exact Or.inl ⟨_, Or.inr ⟨rfl, p, hp, rfl⟩⟩

theorem hostResolves_not_error (L : Stdlib) (original host resolved : GoString)
    (hres : HostResolvesTo L original host resolved) :
    ¬ (host = [] ∧ ∃ e : Error, L.Parse original = .error e) := by
  rintro ⟨hh, e, he⟩
  rcases hres with ⟨hne, _⟩ | ⟨_, p, hp, _⟩
  · exact hne hh
  · rw [he] at hp
    exact Except.noConfusion hp

/-- The bundles loop, when every bundle is called with a host that resolves. -/
theorem bundlesLoop_shape (L : Stdlib) (original host resolved : GoString)
    (hres : HostResolvesTo L original host resolved) (rs : List RuleFile) :
    RuleSet.bundlesLoop L original host rs = (false, original, none) ∨
      ∃ b ∈ rs, ∃ newUrl : GoString,
        RuleFile.Apply L b original host = (true, newUrl, none) ∧
        RuleSet.bundlesLoop L original host rs = (true, newUrl, none) := by
  induction rs with
  | nil => exact Or.inl rfl
  | cons b rest ih =>
    rcases ruleFileApply_shape_resolved L b original host resolved hres with h | ⟨newUrl, h⟩
    · rcases ih with ih | ⟨b1, hb1, newUrl, h1, h2⟩
      · left
        simp only [RuleSet.bundlesLoop, h]
        simpa using ih
      · right
        refine ⟨b1, List.mem_cons_of_mem _ hb1, newUrl, h1, ?_⟩
        simp only [RuleSet.bundlesLoop, h]
        simpa using h2
    · right
      refine ⟨b, List.mem_cons_self _ _, newUrl, h, ?_⟩
      simp [RuleSet.bundlesLoop, h]

/-- The corpus called with an empty host on a URL that parses. -/
theorem ruleSetApply_parsed (L : Stdlib) (rs : RuleSet) (original : GoString) (p : URL)
    (hp : L.Parse original = .ok p) :
    RuleSet.Apply L rs original [] =
      RuleSet.bundlesLoop L original (strings.ToLower L.caseTable p.Host) rs := by
  unfold RuleSet.Apply
  simp [hp]

theorem ruleSetApply_parse_error (L : Stdlib) (rs : RuleSet) (original : GoString)
    (e : Error) (hp : L.Parse original = .error e) :
    RuleSet.Apply L rs original [] = (false, original, some e) := by
  unfold RuleSet.Apply
  simp [hp]

/-- The host handed to the bundles by the corpus resolves whenever the host of the
corpus does: a non-empty host is itself, an empty one is derived again from the same URL. -/
theorem threaded_host_resolves (L : Stdlib) (original : GoString) (p : URL)
    (hp : L.Parse original = .ok p) :
    HostResolvesTo L original (strings.ToLower L.caseTable p.Host)
      (strings.ToLower L.caseTable p.Host) := by
  by_cases hh : strings.ToLower L.caseTable p.Host = []
  · right
    exact ⟨hh, p, hp, rfl⟩
  · left
    exact ⟨hh, rfl⟩

/-- The corpus, when its host resolves: `(false, original, nil)` or the applied result
of one of its bundles. -/
theorem ruleSetApply_shape_resolved (L : Stdlib) (rs : RuleSet)
    (original host resolved : GoString) (hres : HostResolvesTo L original host resolved) :
    RuleSet.Apply L rs original host = (false, original, none) ∨
      ∃ b ∈ rs, ∃ newUrl : GoString,
        RuleFile.Apply L b original resolved = (true, newUrl, none) ∧
        RuleSet.Apply L rs original host = (true, newUrl, none) := by
  rcases hres with ⟨hne, rfl⟩ | ⟨rfl, p, hp, rfl⟩
  · rw [ruleSetApply_explicit L rs original _ hne]
    exact bundlesLoop_shape L original _ _ (Or.inl ⟨hne, rfl⟩) rs
  · rw [ruleSetApply_parsed L rs original p hp]
    exact bundlesLoop_shape L original _ _ (threaded_host_resolves L original p hp) rs

/-- C11: `RuleFile.Apply` and `RuleSet.Apply` return a non-nil error exactly when the
host is empty and parsing the URL fails; the result is then `(false, u, err)` whatever
the bundle or the corpus is (no target, exclusion or rule takes part). -/
theorem apply_error_iff (L : Stdlib) (rs : RuleSet) (b : RuleFile) (u h : GoString) :
    ((RuleFile.Apply L b u h).2.2 ≠ none ↔ (h = [] ∧ ∃ e : Error, L.Parse u = .error e)) ∧
    ((RuleSet.Apply L rs u h).2.2 ≠ none ↔ (h = [] ∧ ∃ e : Error, L.Parse u = .error e)) ∧
    (∀ e : Error, h = [] → L.Parse u = .error e →
      RuleFile.Apply L b u h = (false, u, some e) ∧
      RuleSet.Apply L rs u h = (false, u, some e)) := by
  refine ⟨?_, ?_, ?_⟩
  · constructor
    · intro herr
      rcases hostResolves_or_error L u h with ⟨resolved, hres⟩ | hbad
      · exfalso
        rcases ruleFileApply_shape_resolved L b u h resolved hres with h1 | ⟨r, h1⟩ <;>
          exact herr (by rw [h1])
      · exact hbad
    · rintro ⟨rfl, e, he⟩
      rw [ruleFileApply_parse_error L b u e he]
      simp
  · constructor
    · intro herr
      rcases hostResolves_or_error L u h with ⟨resolved, hres⟩ | hbad
      · exfalso
        rcases ruleSetApply_shape_resolved L rs u h resolved hres with
          h1 | ⟨b1, _, r, _, h1⟩ <;> exact herr (by rw [h1])
      · exact hbad
    · rintro ⟨rfl, e, he⟩
      rw [ruleSetApply_parse_error L rs u e he]
      simp
  · rintro e rfl he
    exact ⟨ruleFileApply_parse_error L b u e he, ruleSetApply_parse_error L rs u e he⟩

/-- Witness of C11: a URL without a scheme, with an empty host and with an explicit one. -/
theorem apply_error_iff_witness :
    (RuleFile.Apply sampleStdlib exampleBundle ":bad".toList [] =
        (false, ":bad".toList, some "missing protocol scheme") ∧
      RuleSet.Apply sampleStdlib [legacyBundle, exampleBundle] ":bad".toList [] =
        (false, ":bad".toList, some "missing protocol scheme")) ∧
    ¬ (RuleSet.Apply sampleStdlib [legacyBundle, exampleBundle] ":bad".toList
        "example.com".toList).2.2 ≠ none :=
  ⟨(apply_error_iff sampleStdlib [legacyBundle, exampleBundle] exampleBundle ":bad".toList
      []).2.2 "missing protocol scheme" rfl rfl,
    fun h => absurd
      ((apply_error_iff sampleStdlib [legacyBundle, exampleBundle] exampleBundle ":bad".toList
        "example.com".toList).2.1.mp h).1 (by decide)⟩

/-- C18: for a bundle and for the corpus, a result with `applied = false` carries the
URL unchanged, and a result with `applied = true` carries no error. -/
theorem apply_result_invariant (L : Stdlib) (rs : RuleSet) (b : RuleFile) (u h : GoString) :
    ((RuleFile.Apply L b u h).1 = false → (RuleFile.Apply L b u h).2.1 = u) ∧
    ((RuleFile.Apply L b u h).1 = true → (RuleFile.Apply L b u h).2.2 = none) ∧
    ((RuleSet.Apply L rs u h).1 = false → (RuleSet.Apply L rs u h).2.1 = u) ∧
    ((RuleSet.Apply L rs u h).1 = true → (RuleSet.Apply L rs u h).2.2 = none) := by
  rcases hostResolves_or_error L u h with ⟨resolved, hres⟩ | ⟨rfl, e, he⟩
  · have hb := ruleFileApply_shape_resolved L b u h resolved hres
    have hs := ruleSetApply_shape_resolved L rs u h resolved hres
    refine ⟨?_, ?_, ?_, ?_⟩
    · rcases hb with h1 | ⟨r, h1⟩ <;> rw [h1] <;> simp
    · rcases hb with h1 | ⟨r, h1⟩ <;> rw [h1] <;> simp
    · rcases hs with h1 | ⟨b1, _, r, _, h1⟩ <;> rw [h1] <;> simp
    · rcases hs with h1 | ⟨b1, _, r, _, h1⟩ <;> rw [h1] <;> simp
  · rw [ruleFileApply_parse_error L b u e he, ruleSetApply_parse_error L rs u e he]
    simp

/-- C16: for a URL that parses with host component `H`, the corpus called with an empty
host gives the result of the corpus called with `lowercase(H)` when `H` is non-empty,
and, when `H` is empty, the result of applying each bundle with the empty host in
order (the first result that is applied or an error, else `(false, u, nil)`). -/
theorem ruleSetApply_resolve_once (L : Stdlib) (rs : RuleSet) (u : GoString) (p : URL)
    (hp : L.Parse u = .ok p) :
    (p.Host ≠ [] →
      RuleSet.Apply L rs u [] = RuleSet.Apply L rs u (strings.ToLower L.caseTable p.Host)) ∧
    (p.Host = [] →
      RuleSet.Apply L rs u [] =
        ((rs.map (fun b => RuleFile.Apply L b u [])).find? Decisive).getD (false, u, none)) := by
  constructor
  · intro hne
    have hlow : strings.ToLower L.caseTable p.Host ≠ [] := by
      unfold strings.ToLower
      simpa using hne
    rw [ruleSetApply_parsed L rs u p hp, ruleSetApply_explicit L rs u _ hlow]
  · intro he
    rw [ruleSetApply_parsed L rs u p hp, he]
    exact bundlesLoop_eq_find L u [] rs

/-- Witness of C16: a URL with host `example.com`, and a URL without a host. -/
theorem ruleSetApply_resolve_once_witness :
    RuleSet.Apply sampleStdlib [legacyBundle, exampleBundle] "http://Example.com/a".toList []
      = RuleSet.Apply sampleStdlib [legacyBundle, exampleBundle] "http://Example.com/a".toList
          "example.com".toList ∧
    RuleSet.Apply sampleStdlib [legacyBundle, exampleBundle] "/a".toList []
      = (([legacyBundle, exampleBundle].map
            (fun b => RuleFile.Apply sampleStdlib b "/a".toList [])).find? Decisive).getD
          (false, "/a".toList, none) :=
  ⟨(ruleSetApply_resolve_once sampleStdlib [legacyBundle, exampleBundle]
      "http://Example.com/a".toList ⟨"Example.com".toList⟩ rfl).1 (by decide),
    (ruleSetApply_resolve_once sampleStdlib [legacyBundle, exampleBundle]
      "/a".toList ⟨[]⟩ rfl).2 rfl⟩

/-! ## The read loop of `main` -/

theorem readString_line (line rest : GoString) (hline : '\n' ∉ line) :
    bufio.ReadString (line ++ '\n' :: rest) '\n' = (line ++ ['\n'], false, rest) := by
  induction line with
  | nil => simp [bufio.ReadString]
  | cons c t ih =>
    have hc : c ≠ '\n' := fun h => hline (by simp [h])
    have ht : '\n' ∉ t := fun h => hline (List.mem_cons_of_mem _ h)
    simp [bufio.ReadString, hc, ih ht]

theorem readString_tail (text : GoString) (htext : '\n' ∉ text) :
    bufio.ReadString text '\n' = (text, true, []) := by
  induction text with
  | nil => rfl
  | cons c t ih =>
    have hc : c ≠ '\n' := fun h => htext (by simp [h])
    have ht : '\n' ∉ t := fun h => htext (List.mem_cons_of_mem _ h)
    simp [bufio.ReadString, hc, ih ht]

/-- A read that does not meet the end of the input consumes at least one character. -/
theorem readString_length (delim : Char) :
    ∀ input : GoString, (bufio.ReadString input delim).2.1 = false →
      (bufio.ReadString input delim).2.2.length < input.length := by
  intro input
  induction input with
  | nil => intro h; simp [bufio.ReadString] at h
  | cons c t ih =>
    intro h
    by_cases hc : c = delim
    · simp [bufio.ReadString, hc]
    · rcases hrs : bufio.ReadString t delim with ⟨l, e, r⟩
      rw [hrs] at ih
      simp only [bufio.ReadString, hc, if_false, hrs] at h ⊢
      have hlt : r.length < t.length := ih h
      simp only [List.length_cons]
      omega

theorem splitLoop_ne_nil (sep : GoString) (n : Nat) (s : GoString) :
    strings.splitLoop sep n s ≠ [] := by
  cases n with
  | zero => simp [strings.splitLoop]
  | succ n =>
    simp only [strings.splitLoop]
    cases strings.Index s sep <;> simp

theorem index_of_lt (a : List GoString) (i : Nat) (h : i < a.length) :
    index a i = .ok (a.getD i []) := by
  unfold index
  rw [List.getD_eq_getElem?_getD, List.get?_eq_getElem?, List.getElem?_eq_getElem h]
  rfl

theorem get?_eq_some_getD (a : List GoString) (i : Nat) (h : i < a.length) :
    a.get? i = some (a.getD i []) := by
  rw [List.get?_eq_getElem?, List.getElem?_eq_getElem h, List.getD_eq_getElem?_getD,
    List.getElem?_eq_getElem h]
  rfl

/-- The body of the read loop raises no fault and builds the request of the
specification. -/
theorem lineRequest_eq (incomingLine : GoString) :
    main.lineRequest incomingLine = .ok (requestOfLine incomingLine) := by
  unfold main.lineRequest requestOfLine
  by_cases h6 : 6 ≤ (strings.Split incomingLine " ".toList).length
  · have hlt : ¬ (strings.Split incomingLine " ".toList).length < 6 := by omega
    have hip : 0 < (strings.Split ((strings.Split incomingLine " ".toList).getD 2 [])
        "/".toList).length := by
      apply List.length_pos.mpr
      unfold strings.Split
      have : ¬ ("/".toList).length = 0 := by decide
      simp only [this, if_false]
      exact splitLoop_ne_nil _ _ _
    simp only [hlt, if_false, h6, if_true]
    rw [index_of_lt _ 2 (by omega)]
    simp only [bind, Except.bind]
    rw [index_of_lt _ 0 (by omega), index_of_lt _ 1 (by omega)]
    simp only []
    rw [index_of_lt _ 0 hip, index_of_lt _ 4 (by omega)]
    rfl
  · have hlt : (strings.Split incomingLine " ".toList).length < 6 := by omega
    rw [if_pos hlt, if_neg h6]

/-- One iteration of the read loop on a line read without error. -/
theorem readLoop_succ (fuel : Nat) (stdin : GoString)
    (hread : (bufio.ReadString stdin '\n').2.1 = false) :
    main.readLoop (fuel + 1) stdin =
      match main.readLoop fuel (bufio.ReadString stdin '\n').2.2 with
      | .error fault => .error fault
      | .ok started =>
        .ok ((requestOfLine (bufio.ReadString stdin '\n').1).toList ++ started) := by
  rw [main.readLoop]
  rcases hrs : bufio.ReadString stdin '\n' with ⟨line, eof, rest⟩
  rw [hrs] at hread
  simp only at hread
  subst hread
  simp only [lineRequest_eq]
  cases requestOfLine line with
  | none => cases main.readLoop fuel rest <;> simp
  | some m => cases main.readLoop fuel rest <;> simp

theorem readLoop_eof (fuel : Nat) (stdin : GoString)
    (hread : (bufio.ReadString stdin '\n').2.1 = true) :
    main.readLoop (fuel + 1) stdin = .ok [] := by
  rw [main.readLoop]
  rcases hrs : bufio.ReadString stdin '\n' with ⟨line, eof, rest⟩
  rw [hrs] at hread
  simp only at hread
  subst hread
  rfl

/-- With a bound larger than the length of the input the read loop returns: it raises
no fault and does not reach the bound. -/
theorem readLoop_total :
    ∀ (fuel : Nat) (stdin : GoString), stdin.length < fuel →
      ∃ started : List MessageInfo, main.readLoop fuel stdin = .ok started := by
  intro fuel
  induction fuel with
  | zero => intro stdin h; omega
  | succ fuel ih =>
    intro stdin h
    cases hread : (bufio.ReadString stdin '\n').2.1 with
    | true => exact ⟨[], readLoop_eof fuel stdin hread⟩
    | false =>
      have hlen := readString_length '\n' stdin hread
      obtain ⟨started, hs⟩ := ih (bufio.ReadString stdin '\n').2.2 (by omega)
      rw [readLoop_succ fuel stdin hread, hs]
      exact ⟨_, rfl⟩

/-- The result of the read loop does not depend on the bound, once it is larger than
the length of the input. -/
theorem readLoop_fuel :
    ∀ (fuel1 fuel2 : Nat) (stdin : GoString), stdin.length < fuel1 → stdin.length < fuel2 →
      main.readLoop fuel1 stdin = main.readLoop fuel2 stdin := by
  intro fuel1
  induction fuel1 with
  | zero => intro fuel2 stdin h; omega
  | succ fuel1 ih =>
    intro fuel2 stdin h1 h2
    cases fuel2 with
    | zero => omega
    | succ fuel2 =>
      cases hread : (bufio.ReadString stdin '\n').2.1 with
      | true => rw [readLoop_eof fuel1 stdin hread, readLoop_eof fuel2 stdin hread]
      | false =>
        have hlen := readString_length '\n' stdin hread
        rw [readLoop_succ fuel1 stdin hread, readLoop_succ fuel2 stdin hread,
          ih fuel2 _ (by omega) (by omega)]

/-- The read loop on an input that begins with a newline-terminated line. -/
theorem requests_line (line rest : GoString) (hline : '\n' ∉ line) :
    main.requests (line ++ '\n' :: rest) =
      match main.requests rest with
      | .error fault => .error fault
      | .ok started => .ok ((requestOfLine (line ++ ['\n'])).toList ++ started) := by
  have hrs := readString_line line rest hline
  unfold main.requests
  rw [readLoop_succ _ _ (by rw [hrs]), hrs]
  simp only
  rw [readLoop_fuel (line ++ '\n' :: rest).length (rest.length + 1) rest
    (by simp; omega) (by omega)]

/-- The read loop on an input without a newline: the end of the input is met before a
line is complete, and the loop ends. -/
theorem requests_tail (text : GoString) (htext : '\n' ∉ text) :
    main.requests text = .ok [] := by
  unfold main.requests
  exact readLoop_eof _ _ (by rw [readString_tail text htext])

theorem requests_inputOf (lines : List GoString) (tail : GoString)
    (hlines : ∀ l ∈ lines, '\n' ∉ l) (htail : '\n' ∉ tail) :
    main.requests (inputOf lines tail) =
      .ok (lines.filterMap (fun l => requestOfLine (l ++ ['\n']))) := by
  induction lines with
  | nil => simpa [inputOf] using requests_tail tail htail
  | cons l rest ih =>
    have hl := hlines l (List.mem_cons_self _ _)
    have hrest := ih (fun x hx => hlines x (List.mem_cons_of_mem _ hx))
    have hin : inputOf (l :: rest) tail = l ++ '\n' :: inputOf rest tail := by
      simp [inputOf]
    rw [hin, requests_line l _ hl, hrest]
    cases hreq : requestOfLine (l ++ ['\n']) <;> simp [List.filterMap_cons, hreq]

/-! ## Loading the corpus -/

theorem walkFn_enabled (L : Stdlib) (env : Loader) (entry : WalkEntry) (rs rs1 : RuleSet)
    (hrs : ∀ b ∈ rs, b.DefaultOff = [])
    (h : ParseDirectory.walkFn L env entry rs = .ok rs1) :
    ∀ b ∈ rs1, b.DefaultOff = [] := by
  unfold ParseDirectory.walkFn at h
  split at h
  · exact Except.noConfusion h
  · split at h
    · cases h; exact hrs
    · split at h
      · cases h; exact hrs
      · split at h
        · exact Except.noConfusion h
        · split at h
          · exact Except.noConfusion h
          · rename_i parsed _
            split at h
            · cases h; exact hrs
            · rename_i hoff
              cases h
              intro b hb
              rcases List.mem_append.mp hb with hb | hb
              · exact hrs b hb
              · rw [List.mem_singleton.mp hb]
                exact List.length_eq_zero.mp (by omega)

theorem walk_enabled (L : Stdlib) (env : Loader) :
    ∀ (entries : List WalkEntry) (rs rs1 : RuleSet),
      (∀ b ∈ rs, b.DefaultOff = []) → ParseDirectory.walk L env entries rs = .ok rs1 →
      ∀ b ∈ rs1, b.DefaultOff = [] := by
  intro entries
  induction entries with
  | nil =>
    intro rs rs1 hrs h
    simp only [ParseDirectory.walk] at h
    cases h
    exact hrs
  | cons entry rest ih =>
    intro rs rs1 hrs h
    simp only [ParseDirectory.walk] at h
    cases hfn : ParseDirectory.walkFn L env entry rs with
    | error err => rw [hfn] at h; exact Except.noConfusion h
    | ok rs2 =>
      rw [hfn] at h
      exact ih rs2 rs1 (walkFn_enabled L env entry rs rs2 hrs hfn) h

/-! ## Claims on `main.go` and on the loader -/

/-- C12: for every request, `handleIncomingMessage` sends exactly one line on the output
channel, the decision line for the result of `ruleset.Apply(u, "")`: `id OK` when not
applied and no error, `id OK status=301 url="newUrl"` when applied, `id BH message=err`
on an error. For the request `req1` for `http://example.com/a` and a rule rewriting it
to `https://example.com/a` the line is `req1 OK status=301 url="https://example.com/a"`. -/
theorem handleIncomingMessage_one_line (L : Stdlib) (ruleset : RuleSet) (m : MessageInfo) :
    handleIncomingMessage L ruleset m =
        [decisionLine m.RequestID (RuleSet.Apply L ruleset m.URL [])] ∧
    handleIncomingMessage sampleStdlib [upgradeBundle]
        ⟨"req1".toList, "http://example.com/a".toList, "1.2.3.4".toList, "GET".toList⟩ =
      ["req1 OK status=301 url=\"https://example.com/a\"\n".toList] := by
  refine ⟨?_, by decide⟩
  unfold handleIncomingMessage handleIncomingMessage.body decisionLine
  rcases RuleSet.Apply L ruleset m.URL [] with ⟨applied, newUrl, err⟩
  cases err with
  | some e => simp
  | none => cases applied <;> simp

/-- C13: a newline-terminated line that splits on the space character into fewer
than 6 fields starts no worker, adds no decision line and raises no fault; a
newline-terminated line with 6 or more fields starts exactly one worker, for the
request whose identifier is field 0 and whose URL is field 1. -/
theorem readLoop_line_fields (L : Stdlib) (ruleset : RuleSet) (line rest : GoString)
    (hline : '\n' ∉ line) :
    ∃ started : List MessageInfo, main.requests rest = .ok started ∧
      ((strings.Split (line ++ ['\n']) " ".toList).length < 6 →
        main.requests (line ++ '\n' :: rest) = .ok started ∧
        main.linesSent L ruleset (line ++ '\n' :: rest) = main.linesSent L ruleset rest) ∧
      (6 ≤ (strings.Split (line ++ ['\n']) " ".toList).length →
        ∃ req : MessageInfo, main.requests (line ++ '\n' :: rest) = .ok (req :: started) ∧
          (strings.Split (line ++ ['\n']) " ".toList).get? 0 = some req.RequestID ∧
          (strings.Split (line ++ ['\n']) " ".toList).get? 1 = some req.URL) := by
  obtain ⟨started, hs⟩ := readLoop_total (rest.length + 1) rest (by omega)
  have hs1 : main.requests rest = .ok started := hs
  have hreq := requests_line line rest hline
  rw [hs1] at hreq
  simp only at hreq
  refine ⟨started, hs1, ?_, ?_⟩
  · intro hlt
    have hnone : requestOfLine (line ++ ['\n']) = none := by
      unfold requestOfLine
      rw [if_neg (by omega)]
    rw [hnone] at hreq
    refine ⟨by simpa using hreq, ?_⟩
    unfold main.linesSent
    rw [hs1, show main.requests (line ++ '\n' :: rest) = .ok started by simpa using hreq]
  · intro h6
    have hsome : requestOfLine (line ++ ['\n']) = some
        { RequestID := (strings.Split (line ++ ['\n']) " ".toList).getD 0 [],
          URL := (strings.Split (line ++ ['\n']) " ".toList).getD 1 [],
          IP := (strings.Split ((strings.Split (line ++ ['\n']) " ".toList).getD 2 [])
            "/".toList).getD 0 [],
          Method := (strings.Split (line ++ ['\n']) " ".toList).getD 4 [] } := by
      unfold requestOfLine
      rw [if_pos h6]
    rw [hsome] at hreq
    exact ⟨_, hreq, get?_eq_some_getD _ 0 (by omega), get?_eq_some_getD _ 1 (by omega)⟩

/-- Witness of C13: the line `x y` (two fields) in front of an input. -/
theorem readLoop_line_fields_witness :
    ∃ started : List MessageInfo,
      main.requests "req1 http://example.com/a 1.2.3.4/- - GET -\n".toList = .ok started ∧
      ((strings.Split ("x y".toList ++ ['\n']) " ".toList).length < 6 →
        main.requests ("x y".toList ++
            '\n' :: "req1 http://example.com/a 1.2.3.4/- - GET -\n".toList) = .ok started ∧
        main.linesSent sampleStdlib [upgradeBundle] ("x y".toList ++
            '\n' :: "req1 http://example.com/a 1.2.3.4/- - GET -\n".toList) =
          main.linesSent sampleStdlib [upgradeBundle]
            "req1 http://example.com/a 1.2.3.4/- - GET -\n".toList) ∧
      (6 ≤ (strings.Split ("x y".toList ++ ['\n']) " ".toList).length →
        ∃ req : MessageInfo,
          main.requests ("x y".toList ++
            '\n' :: "req1 http://example.com/a 1.2.3.4/- - GET -\n".toList) =
            .ok (req :: started) ∧
          (strings.Split ("x y".toList ++ ['\n']) " ".toList).get? 0 = some req.RequestID ∧
          (strings.Split ("x y".toList ++ ['\n']) " ".toList).get? 1 = some req.URL) :=
  readLoop_line_fields sampleStdlib [upgradeBundle] "x y".toList
    "req1 http://example.com/a 1.2.3.4/- - GET -\n".toList (by decide)

/-- C20: on an input whose last line is not terminated by a newline, that last line
starts no worker and adds no decision line, whatever its number of fields; the workers
started are those of the newline-terminated lines with 6 or more fields, one each. -/
theorem readLoop_unterminated (L : Stdlib) (ruleset : RuleSet) (lines : List GoString)
    (tail : GoString) (hlines : ∀ l ∈ lines, '\n' ∉ l) (htail : '\n' ∉ tail) :
    main.requests (inputOf lines tail) =
        .ok (lines.filterMap (fun l => requestOfLine (l ++ ['\n']))) ∧
    main.requests (inputOf lines tail) = main.requests (inputOf lines []) ∧
    main.linesSent L ruleset (inputOf lines tail) = main.linesSent L ruleset (inputOf lines []) := by
  have h1 := requests_inputOf lines tail hlines htail
  have h2 := requests_inputOf lines [] hlines (by simp)
  refine ⟨h1, by rw [h1, h2], ?_⟩
  unfold main.linesSent
  rw [h1, h2]

/-- Witness of C20: the last line has 6 fields and no newline; only the first line
yields a request and a decision line. -/
theorem readLoop_unterminated_witness :
    6 ≤ (strings.Split "req2 http://example.com/b 1.2.3.4/- - GET -".toList " ".toList).length ∧
    main.requests (inputOf ["req1 http://example.com/a 1.2.3.4/- - GET -".toList]
        "req2 http://example.com/b 1.2.3.4/- - GET -".toList) =
      .ok [⟨"req1".toList, "http://example.com/a".toList, "1.2.3.4".toList, "GET".toList⟩] ∧
    main.linesSent sampleStdlib [upgradeBundle]
        (inputOf ["req1 http://example.com/a 1.2.3.4/- - GET -".toList]
          "req2 http://example.com/b 1.2.3.4/- - GET -".toList) =
      .ok ["req1 OK status=301 url=\"https://example.com/a\"\n".toList] :=
  ⟨by decide,
    (readLoop_unterminated sampleStdlib [upgradeBundle]
      ["req1 http://example.com/a 1.2.3.4/- - GET -".toList]
      "req2 http://example.com/b 1.2.3.4/- - GET -".toList
      (by intro l hl; rw [List.mem_singleton.mp hl]; decide) (by decide)).1.trans rfl,
    rfl⟩

/-- C14: every bundle of the corpus returned by `ParseDirectory` has an empty
`default_off` flag, so a result of the corpus with `applied = true` is the result of a
bundle of the corpus that is not disabled. -/
theorem parseDirectory_enabled (L : Stdlib) (env : Loader) (dir : GoString) (rs : RuleSet)
    (h : ParseDirectory L env dir = .ok rs) :
    (∀ b ∈ rs, b.DefaultOff = []) ∧
    ∀ u host : GoString, (RuleSet.Apply L rs u host).1 = true →
      ∃ b ∈ rs, b.DefaultOff = [] ∧
        ∃ resolved : GoString, RuleFile.Apply L b u resolved = RuleSet.Apply L rs u host := by
  have hall : ∀ b ∈ rs, b.DefaultOff = [] :=
    walk_enabled L env (env.Walk dir) [] rs (by simp) h
  refine ⟨hall, ?_⟩
  intro u host happ
  rcases hostResolves_or_error L u host with ⟨resolved, hres⟩ | ⟨rfl, e, he⟩
  · rcases ruleSetApply_shape_resolved L rs u host resolved hres with
      h1 | ⟨b, hb, newUrl, h1, h2⟩
    · rw [h1] at happ
      exact absurd happ (by simp)
    · exact ⟨b, hb, hall b hb, resolved, by rw [h1, h2]⟩
  · rw [ruleSetApply_parse_error L rs u e he] at happ
    exact absurd happ (by simp)

/-- Witness of C14: the directory `rules` holds a disabled document whose rule matches
every `http` URL; the corpus is the enabled bundle alone. -/
theorem parseDirectory_enabled_witness :
    (∀ b ∈ [upgradeBundle], b.DefaultOff = []) ∧
    ∀ u host : GoString, (RuleSet.Apply sampleStdlib [upgradeBundle] u host).1 = true →
      ∃ b ∈ [upgradeBundle], b.DefaultOff = [] ∧
        ∃ resolved : GoString,
          RuleFile.Apply sampleStdlib b u resolved =
            RuleSet.Apply sampleStdlib [upgradeBundle] u host :=
  parseDirectory_enabled sampleStdlib sampleLoader "rules".toList [upgradeBundle] rfl

/-! ## Placeholders and the text around the match -/

theorem digitChar_isDigit (m : Nat) (h : m < 10) : (Nat.digitChar m).isDigit = true := by
  interval_cases m <;> rfl

theorem toDigitsCore_isDigit :
    ∀ (fuel n : Nat) (ds : List Char), (∀ c ∈ ds, c.isDigit = true) →
      ∀ c ∈ Nat.toDigitsCore 10 fuel n ds, c.isDigit = true := by
  intro fuel
  induction fuel with
  | zero => intro n ds hds; simpa [Nat.toDigitsCore] using hds
  | succ fuel ih =>
    intro n ds hds
    have hd : (Nat.digitChar (n % 10)).isDigit = true :=
      digitChar_isDigit _ (Nat.mod_lt _ (by decide))
    have hcons : ∀ c ∈ Nat.digitChar (n % 10) :: ds, c.isDigit = true := by
      intro c hc
      rcases List.mem_cons.mp hc with rfl | hc
      · exact hd
      · exact hds c hc
    simp only [Nat.toDigitsCore]
    split
    · exact hcons
    · exact ih _ _ hcons

/-- A placeholder is `$` followed by decimal digits. -/
theorem placeholder_digits (k : Nat) :
    ∃ ds : List Char, placeholder k = '$' :: ds ∧ ∀ c ∈ ds, c.isDigit = true :=
  ⟨Nat.toDigits 10 k, rfl, toDigitsCore_isDigit _ _ [] (by simp)⟩

theorem replaceEveryFrom_zero_cons (old new : GoString) (c : Char) (t : GoString) :
    replaceEveryFrom old new 0 (c :: t) =
      if old.isPrefixOf (c :: t) then new ++ replaceEveryFrom old new (old.length - 1) t
      else c :: replaceEveryFrom old new 0 t := rfl

theorem replaceEveryFrom_succ_cons (old new : GoString) (k : Nat) (c : Char) (t : GoString) :
    replaceEveryFrom old new (k + 1) (c :: t) = replaceEveryFrom old new k t := rfl

/-- Text without `$` in front of the text read is copied unchanged. -/
theorem replaceEveryFrom_before (ds new : GoString) :
    ∀ pre x : GoString, '$' ∉ pre →
      replaceEveryFrom ('$' :: ds) new 0 (pre ++ x) =
        pre ++ replaceEveryFrom ('$' :: ds) new 0 x := by
  intro pre
  induction pre with
  | nil => intro x _; rfl
  | cons c p ih =>
    intro x hpre
    have hc : ('$' :: ds).isPrefixOf (c :: (p ++ x)) = false := by
      apply Bool.eq_false_iff.mpr
      intro h
      have h1 := List.isPrefixOf_iff_prefix.mp h
      rw [List.cons_prefix_cons] at h1
      exact hpre (by rw [h1.1]; exact List.mem_cons_self _ _)
    have hp : '$' ∉ p := fun h => hpre (List.mem_cons_of_mem _ h)
    rw [List.cons_append, replaceEveryFrom_zero_cons, hc, ih x hp]
    rfl

/-- What `spansBoundary` excludes, in terms of the two parts of the token. -/
theorem spansBoundary_false (token M post : GoString)
    (h : spansBoundary token M post = false) (a b : GoString) (ha : a ≠ []) (hb : b ≠ [])
    (hab : a ++ b = token) (hsuf : a <:+ M) : ¬ b <+: post := by
  intro hpre
  unfold spansBoundary at h
  rw [List.any_eq_false] at h
  have hla : 0 < a.length := List.length_pos.mpr ha
  have hlb : 0 < b.length := List.length_pos.mpr hb
  have hlen : token.length = a.length + b.length := by rw [← hab, List.length_append]
  have hmem : a.length ∈ List.range' 1 (token.length - 1) := by
    rw [List.mem_range'_1]
    omega
  apply h a.length hmem
  rw [← hab, List.take_left' rfl, List.drop_left' rfl, Bool.and_eq_true]
  exact ⟨List.isSuffixOf_iff_suffix.mpr hsuf, List.isPrefixOf_iff_prefix.mpr hpre⟩

/-- A token that begins with `$` does not span the end of a text without `$`. -/
theorem spansBoundary_dollar_free (ds M post : GoString) (hM : '$' ∉ M) :
    spansBoundary ('$' :: ds) M post = false := by
  unfold spansBoundary
  rw [List.any_eq_false]
  intro i hi hspan
  rw [List.mem_range'_1] at hi
  rw [Bool.and_eq_true] at hspan
  obtain ⟨x, hx⟩ := List.isSuffixOf_iff_suffix.mp hspan.1
  apply hM
  rw [← hx]
  obtain ⟨j, hj⟩ : ∃ j, i = j + 1 := ⟨i - 1, by omega⟩
  rw [hj, List.take_succ_cons]
  simp

/-- Text without `$` after the text read is copied unchanged, when the token does not
lie across the end of the text read and the start of the text after it. -/
theorem replaceEveryFrom_after_no_span (ds new post : GoString) (hdollar : '$' ∉ post) :
    ∀ M : GoString,
      (∀ a b : GoString, a ≠ [] → b ≠ [] → a ++ b = '$' :: ds → a <:+ M → ¬ b <+: post) →
      ∀ k : Nat, k ≤ M.length →
        replaceEveryFrom ('$' :: ds) new k (M ++ post) =
          replaceEveryFrom ('$' :: ds) new k M ++ post := by
  intro M
  induction M with
  | nil =>
    intro _ k hk
    have hk0 : k = 0 := by simpa using hk
    subst hk0
    have := replaceEveryFrom_before ds new post [] hdollar
    simp only [List.append_nil] at this
    have hnil : replaceEveryFrom ('$' :: ds) new 0 [] = [] := rfl
    rw [List.nil_append, this, hnil, List.append_nil, List.nil_append]
  | cons c M1 ih =>
    intro hns k hk
    have hns1 : ∀ a b : GoString, a ≠ [] → b ≠ [] → a ++ b = '$' :: ds → a <:+ M1 →
        ¬ b <+: post :=
      fun a b ha hb hab hsuf => hns a b ha hb hab (hsuf.trans (List.suffix_cons c M1))
    cases k with
    | succ k =>
      rw [List.cons_append, replaceEveryFrom_succ_cons, replaceEveryFrom_succ_cons]
      exact ih hns1 k (by simpa using hk)
    | zero =>
      rw [List.cons_append, replaceEveryFrom_zero_cons, replaceEveryFrom_zero_cons]
      by_cases hp : ('$' :: ds).isPrefixOf (c :: (M1 ++ post)) = true
      · have hpp : ('$' :: ds) <+: (c :: M1) ++ post := List.isPrefixOf_iff_prefix.mp hp
        have hin : ('$' :: ds) <+: c :: M1 := by
          by_cases hlen : ('$' :: ds).length ≤ (c :: M1).length
          · exact List.prefix_of_prefix_length_le hpp (List.prefix_append _ post) hlen
          · exfalso
            obtain ⟨r, hr⟩ : (c :: M1) <+: '$' :: ds :=
              List.prefix_of_prefix_length_le (List.prefix_append _ post) hpp (by omega)
            have hrne : r ≠ [] := by
              intro hr0
              rw [hr0, List.append_nil] at hr
              rw [hr] at hlen
              exact hlen (le_refl _)
            rw [← hr] at hpp
            exact hns (c :: M1) r (List.cons_ne_nil _ _) hrne hr (List.suffix_refl _)
              ((List.prefix_append_right_inj (c :: M1)).mp hpp)
        have hp1 : ('$' :: ds).isPrefixOf (c :: M1) = true := List.isPrefixOf_iff_prefix.mpr hin
        have hle : ('$' :: ds).length - 1 ≤ M1.length := by
          have := hin.length_le
          simp only [List.length_cons] at this ⊢
          omega
        rw [if_pos hp, if_pos hp1, ih hns1 _ hle, List.append_assoc]
      · have hp1 : ¬ ('$' :: ds).isPrefixOf (c :: M1) = true := by
          intro h1
          have h2 : ('$' :: ds) <+: c :: M1 := List.isPrefixOf_iff_prefix.mp h1
          have h3 : ('$' :: ds) <+: c :: (M1 ++ post) := by
            rw [← List.cons_append]
            exact h2.trans (List.prefix_append _ _)
          exact hp (List.isPrefixOf_iff_prefix.mpr h3)
        rw [if_neg hp, if_neg hp1, ih hns1 0 (Nat.zero_le _)]
        rfl

/-- The frame of one replacement, when the placeholder does not lie across the end of
the middle text and the start of the text after it. -/
theorem replaceEvery_frame_no_span (k : Nat) (new pre M post : GoString) (hpre : '$' ∉ pre)
    (hdollar : '$' ∉ post) (hspan : spansBoundary (placeholder k) M post = false) :
    replaceEveryOccurrence (placeholder k) new (pre ++ M ++ post) =
      pre ++ replaceEveryOccurrence (placeholder k) new M ++ post := by
  obtain ⟨ds, hk, _⟩ := placeholder_digits k
  rw [hk] at hspan
  unfold replaceEveryOccurrence
  rw [hk, List.append_assoc, replaceEveryFrom_before ds new pre _ hpre,
    replaceEveryFrom_after_no_span ds new post hdollar M
      (spansBoundary_false _ M post hspan) 0 (Nat.zero_le _), List.append_assoc]

theorem substitutePlaceholders_succ (groupText : Nat → GoString) (n : Nat) (s : GoString) :
    substitutePlaceholders groupText (n + 1) s =
      replaceEveryOccurrence (placeholder (n + 1)) (groupText (n + 1))
        (substitutePlaceholders groupText n s) := by
  unfold substitutePlaceholders
  rw [List.range'_concat, List.foldl_append, Nat.one_mul, Nat.add_comm 1 n]
  rfl

/-- The frame of the placeholder substitution: the text before and after is left
unchanged when, at each step, the placeholder does not lie across the end of the
middle text and the start of the text after it. -/
theorem substitute_frame_no_span (groupText : Nat → GoString) (pre T post : GoString)
    (hpre : '$' ∉ pre) (hdollar : '$' ∉ post) :
    ∀ n : Nat,
      (∀ k : Nat, 1 ≤ k → k ≤ n →
        spansBoundary (placeholder k) (substitutePlaceholders groupText (k - 1) T) post
          = false) →
      substitutePlaceholders groupText n (pre ++ T ++ post) =
        pre ++ substitutePlaceholders groupText n T ++ post := by
  intro n
  induction n with
  | zero => intro _; rfl
  | succ n ih =>
    intro hspan
    rw [substitutePlaceholders_succ, substitutePlaceholders_succ,
      ih (fun k h1 hk => hspan k h1 (by omega))]
    exact replaceEvery_frame_no_span (n + 1) _ pre _ post hpre hdollar
      (hspan (n + 1) (by omega) (le_refl _))

/-- A template without `$` is left unchanged by the placeholder substitution. -/
theorem substitute_dollar_free (groupText : Nat → GoString) (T : GoString) (hT : '$' ∉ T) :
    ∀ n : Nat, substitutePlaceholders groupText n T = T := by
  intro n
  induction n with
  | zero => rfl
  | succ n ih =>
    rw [substitutePlaceholders_succ, ih]
    obtain ⟨ds, hk, _⟩ := placeholder_digits (n + 1)
    unfold replaceEveryOccurrence
    rw [hk]
    have := replaceEveryFrom_before ds (groupText (n + 1)) T [] hT
    simp only [List.append_nil] at this
    rw [this]
    have hnil : replaceEveryFrom ('$' :: ds) (groupText (n + 1)) 0 [] = [] := rfl
    rw [hnil, List.append_nil]

/-- For a template without `$` no placeholder lies across its end, whatever follows. -/
theorem spansBoundary_template_dollar_free (groupText : Nat → GoString) (T post : GoString)
    (hT : '$' ∉ T) (k j : Nat) :
    spansBoundary (placeholder k) (substitutePlaceholders groupText j T) post = false := by
  obtain ⟨ds, hk, _⟩ := placeholder_digits k
  rw [hk, substitute_dollar_free groupText T hT j]
  exact spansBoundary_dollar_free ds T post hT

/-- When the text after the middle text does not begin with a digit, no placeholder
lies across the end of the middle text. -/
theorem spansBoundary_not_digit (k : Nat) (M post : GoString)
    (hpost : ∀ c ∈ post.head?, c.isDigit = false) :
    spansBoundary (placeholder k) M post = false := by
  obtain ⟨ds, hk, hds⟩ := placeholder_digits k
  rw [hk]
  unfold spansBoundary
  rw [List.any_eq_false]
  intro i hi hspan
  rw [List.mem_range'_1] at hi
  rw [Bool.and_eq_true] at hspan
  obtain ⟨j, hj⟩ : ∃ j, i = j + 1 := ⟨i - 1, by omega⟩
  have hlen : j < ds.length := by
    simp only [List.length_cons] at hi
    omega
  obtain ⟨q, hq⟩ := List.isPrefixOf_iff_prefix.mp hspan.2
  rw [hj, List.drop_succ_cons] at hq
  have hne : ds.drop j ≠ [] := by
    intro h0
    have := congrArg List.length h0
    simp only [List.length_drop, List.length_nil] at this
    omega
  cases hd : ds.drop j with
  | nil => exact hne hd
  | cons a r =>
    rw [hd] at hq
    have hhead : post.head? = some a := by rw [← hq]; rfl
    have ha : a.isDigit = false := hpost a (by rw [hhead]; exact rfl)
    have hmem : a ∈ ds := List.mem_of_mem_drop (by rw [hd]; exact List.mem_cons_self _ _)
    rw [hds a hmem] at ha
    exact Bool.noConfusion ha

/-- C19, as stated, fails: the URL has no `$`, the pattern matches at offset 0 and the
template ends with `$`; the text after the match begins with `1`, so the placeholder
`$1` lies across the end of the template and the start of that text, its replacement
reaches into it and the result is not the text outside the match around the
substituted template. -/
theorem ruleApply_frame_counterexample :
    '$' ∉ "http://example.com/v1/x".toList ∧
    (trailingDollarRule.From.MatcherString "http://example.com/v1/x".toList).Matches = true ∧
    (trailingDollarRule.From.MatcherString "http://example.com/v1/x".toList).GroupString 0
      = "http://example.com/v".toList ∧
    "http://example.com/v1/x".toList = [] ++ "http://example.com/v".toList ++ "1/x".toList ∧
    trailingDollarRule.Apply "http://example.com/v1/x".toList
      = ("https://example.com/v/x".toList, true) ∧
    trailingDollarRule.Apply "http://example.com/v1/x".toList ≠
      ([] ++ substitutePlaceholders
          (trailingDollarRule.From.MatcherString "http://example.com/v1/x".toList).GroupString
          (trailingDollarRule.From.MatcherString "http://example.com/v1/x".toList).Groups
          trailingDollarRule.To ++ "1/x".toList, true) ∧
    spansBoundary (placeholder 1) trailingDollarRule.To "1/x".toList = true := by
  refine ⟨by decide, by decide, by decide, by decide, by decide, by decide, by decide⟩

/-- C19, amended: for a URL `pre ++ m ++ post` without `$` on which the pattern matches
with full match text `m`, where `m` does not occur at an offset smaller than that of
the match and no placeholder `$k`, `k = 1..N`, lies across the end of the template (as
it stands after the replacements for the groups `1..k-1`) and the start of `post`,
`Rule.Apply` returns `pre ++ S ++ post` with `S` the template after the placeholder
replacements in increasing order; the text before and after the match is left
unchanged. -/
theorem ruleApply_frame (r : Rule) (pre m post : GoString)
    (hm : (r.From.MatcherString (pre ++ m ++ post)).Matches = true)
    (hg0 : (r.From.MatcherString (pre ++ m ++ post)).GroupString 0 = m)
    (hdollar : '$' ∉ pre ++ m ++ post)
    (hfirst : ∀ k : Nat, k < pre.length → ¬ m <+: (pre ++ m ++ post).drop k)
    (hspan : ∀ k : Nat, 1 ≤ k → k ≤ (r.From.MatcherString (pre ++ m ++ post)).Groups →
      spansBoundary (placeholder k)
        (substitutePlaceholders (r.From.MatcherString (pre ++ m ++ post)).GroupString
          (k - 1) r.To) post = false) :
    r.Apply (pre ++ m ++ post) =
      (pre ++ substitutePlaceholders (r.From.MatcherString (pre ++ m ++ post)).GroupString
          (r.From.MatcherString (pre ++ m ++ post)).Groups r.To ++ post, true) := by
  have hpre : '$' ∉ pre := fun h => hdollar (by simp [h])
  have hpo : '$' ∉ post := fun h => hdollar (by simp [h])
  unfold Rule.Apply
  simp only [hm, Bool.not_true, Bool.false_eq_true, if_false]
  rw [groupLoop_eq, replace_one_eq, hg0, replaceFirst_split m r.To post pre hfirst]
  exact congrArg (fun x => (x, true))
    (substitute_frame_no_span _ pre r.To post hpre hpo _ hspan)

/-- Witness of C19, amended: the text after the match begins with the digit `1`; with
the template `https://example.com/$1`, and with the template of `secureRule`, which
has no placeholder, the text around the match is left unchanged. -/
theorem ruleApply_frame_witness :
    (versionRule.Apply ([] ++ "http://example.com/v".toList ++ "1/x".toList) =
        ([] ++ substitutePlaceholders
            (versionRule.From.MatcherString
              ([] ++ "http://example.com/v".toList ++ "1/x".toList)).GroupString
            (versionRule.From.MatcherString
              ([] ++ "http://example.com/v".toList ++ "1/x".toList)).Groups versionRule.To
            ++ "1/x".toList, true) ∧
      versionRule.Apply "http://example.com/v1/x".toList =
        ("https://example.com/v1/x".toList, true)) ∧
    secureRule.Apply ([] ++ "http://example.com/".toList ++ "1/x".toList) =
      ([] ++ substitutePlaceholders
          (secureRule.From.MatcherString
            ([] ++ "http://example.com/".toList ++ "1/x".toList)).GroupString
          (secureRule.From.MatcherString
            ([] ++ "http://example.com/".toList ++ "1/x".toList)).Groups secureRule.To
          ++ "1/x".toList, true) :=
  ⟨⟨ruleApply_frame versionRule [] "http://example.com/v".toList "1/x".toList
      (by decide) (by decide) (by decide)
      (by intro k hk; exact absurd hk (Nat.not_lt_zero k))
      (by
        intro k h1 hk
        have hk1 : k ≤ 1 := hk
        have : k = 1 := by omega
        subst this
        decide),
    by decide⟩,
    ruleApply_frame secureRule [] "http://example.com/".toList "1/x".toList
      (by decide) (by decide) (by decide)
      (by intro k hk; exact absurd hk (Nat.not_lt_zero k))
      (by
        intro k h1 hk
        have hk0 : k ≤ 0 := hk
        omega)⟩

/-! ## The order of the placeholder replacements -/

theorem noDoubleDollar_iff (s : GoString) :
    noDoubleDollar s = true ↔ ¬ "$$".toList <:+: s := by
  induction s with
  | nil => simp [noDoubleDollar]
  | cons c t ih =>
    cases t with
    | nil =>
      simp only [noDoubleDollar, true_iff]
      intro h
      have := h.length_le
      simp at this
    | cons d r =>
      rw [List.infix_cons_iff, noDoubleDollar, Bool.and_eq_true, ih]
      have hp : ("$$".toList <+: c :: d :: r) ↔ (c = '$' ∧ d = '$') := by
        show ('$' :: '$' :: [] <+: c :: d :: r) ↔ _
        rw [List.cons_prefix_cons, List.cons_prefix_cons]
        constructor
        · rintro ⟨h1, h2, _⟩
          exact ⟨h1.symm, h2.symm⟩
        · rintro ⟨h1, h2⟩
          exact ⟨h1.symm, h2.symm, List.nil_prefix⟩
      rw [hp]
      simp only [Bool.not_eq_true', Bool.and_eq_false_iff, beq_eq_false_iff_ne, ne_eq]
      tauto

theorem noDoubleDollar_tail (c : Char) (t : GoString) (h : noDoubleDollar (c :: t) = true) :
    noDoubleDollar t = true := by
  cases t with
  | nil => rfl
  | cons d r =>
    rw [noDoubleDollar, Bool.and_eq_true] at h
    exact h.2

theorem noDoubleDollar_cons (c : Char) (t : GoString) (hc : c ≠ '$')
    (h : noDoubleDollar t = true) : noDoubleDollar (c :: t) = true := by
  cases t with
  | nil => rfl
  | cons d r =>
    rw [noDoubleDollar, Bool.and_eq_true]
    refine ⟨?_, h⟩
    simp [hc]

theorem noDoubleDollar_append (g x : GoString) (hg : '$' ∉ g) (h : noDoubleDollar x = true) :
    noDoubleDollar (g ++ x) = true := by
  induction g with
  | nil => exact h
  | cons c g1 ih =>
    exact noDoubleDollar_cons c _ (fun hc => hg (by rw [hc]; exact List.mem_cons_self _ _))
      (ih (fun h1 => hg (List.mem_cons_of_mem _ h1)))

theorem noDoubleDollar_dollar (e : Char) (t : GoString) (he : e ≠ '$')
    (h : noDoubleDollar t = true) : noDoubleDollar ('$' :: e :: t) = true := by
  rw [noDoubleDollar, Bool.and_eq_true]
  refine ⟨?_, noDoubleDollar_cons e t he h⟩
  simp [he]

theorem noDoubleDollar_second (e : Char) (t : GoString)
    (h : noDoubleDollar ('$' :: e :: t) = true) : e ≠ '$' := by
  rw [noDoubleDollar, Bool.and_eq_true] at h
  intro he
  rw [he] at h
  simp at h

/-- The replacement of a two-character token `$d` on a text that begins with it. -/
theorem replaceToken_at (d : Char) (g rest : GoString) :
    replaceEveryFrom ['$', d] g 0 ('$' :: d :: rest) =
      g ++ replaceEveryFrom ['$', d] g 0 rest := by
  have hp : (['$', d] : GoString).isPrefixOf ('$' :: d :: rest) = true :=
    List.isPrefixOf_iff_prefix.mpr ⟨rest, rfl⟩
  rw [replaceEveryFrom_zero_cons, if_pos hp]
  rfl

theorem replaceToken_other (d c : Char) (g rest : GoString) (hc : c ≠ '$') :
    replaceEveryFrom ['$', d] g 0 (c :: rest) = c :: replaceEveryFrom ['$', d] g 0 rest := by
  have := replaceEveryFrom_before [d] g [c] rest
    (by simpa using fun h : '$' = c => hc h.symm)
  simpa using this

theorem replaceToken_dollar (d e : Char) (g rest : GoString) (he : e ≠ d) :
    replaceEveryFrom ['$', d] g 0 ('$' :: e :: rest) =
      '$' :: replaceEveryFrom ['$', d] g 0 (e :: rest) := by
  have hp : ¬ (['$', d] : GoString).isPrefixOf ('$' :: e :: rest) = true := by
    intro h
    have h1 := List.isPrefixOf_iff_prefix.mp h
    rw [List.cons_prefix_cons, List.cons_prefix_cons] at h1
    exact he h1.2.1.symm
  rw [replaceEveryFrom_zero_cons, if_neg hp]

theorem replaceToken_single (d : Char) (g : GoString) :
    replaceEveryFrom ['$', d] g 0 ['$'] = ['$'] := by
  have hp : ¬ (['$', d] : GoString).isPrefixOf ['$'] = true := by
    intro h
    have h1 := (List.isPrefixOf_iff_prefix.mp h).length_le
    simp at h1
  rw [replaceEveryFrom_zero_cons, if_neg hp]
  rfl

/-- A replacement by a text without `$` keeps the text free of `$$`. -/
theorem replaceToken_noDoubleDollar (d : Char) (g : GoString) (hd : d ≠ '$') (hg : '$' ∉ g) :
    ∀ (n : Nat) (s : GoString), s.length ≤ n → noDoubleDollar s = true →
      noDoubleDollar (replaceEveryFrom ['$', d] g 0 s) = true := by
  intro n
  induction n with
  | zero =>
    intro s hs _
    have : s = [] := List.length_eq_zero.mp (Nat.le_zero.mp hs)
    subst this
    rfl
  | succ n ih =>
    intro s hs hdd
    cases s with
    | nil => rfl
    | cons c t =>
      have ht : noDoubleDollar t = true := noDoubleDollar_tail c t hdd
      have hlt : t.length ≤ n := by simpa using hs
      by_cases hc : c = '$'
      · subst hc
        cases t with
        | nil => rw [replaceToken_single]; rfl
        | cons e r =>
          have he : e ≠ '$' := noDoubleDollar_second e r hdd
          have hr : noDoubleDollar r = true := noDoubleDollar_tail e r ht
          have hlr : r.length ≤ n := by
            simp only [List.length_cons] at hlt
            omega
          by_cases hed : e = d
          · subst hed
            rw [replaceToken_at]
            exact noDoubleDollar_append g _ hg (ih r hlr hr)
          · rw [replaceToken_dollar d e g r hed, replaceToken_other d e g r he]
            exact noDoubleDollar_dollar e _ he (ih r hlr hr)
      · rw [replaceToken_other d c g t hc]
        exact noDoubleDollar_cons c _ hc (ih t hlt ht)

/-- Two replacements of different two-character tokens by texts without `$` commute on
a text free of `$$`. -/
theorem replaceToken_comm (d1 d2 : Char) (g1 g2 : GoString) (h12 : d1 ≠ d2)
    (h1 : d1 ≠ '$') (h2 : d2 ≠ '$') (hg1 : '$' ∉ g1) (hg2 : '$' ∉ g2) :
    ∀ (n : Nat) (s : GoString), s.length ≤ n → noDoubleDollar s = true →
      replaceEveryFrom ['$', d1] g1 0 (replaceEveryFrom ['$', d2] g2 0 s) =
        replaceEveryFrom ['$', d2] g2 0 (replaceEveryFrom ['$', d1] g1 0 s) := by
  intro n
  induction n with
  | zero =>
    intro s hs _
    have : s = [] := List.length_eq_zero.mp (Nat.le_zero.mp hs)
    subst this
    rfl
  | succ n ih =>
    intro s hs hdd
    cases s with
    | nil => rfl
    | cons c t =>
      have ht : noDoubleDollar t = true := noDoubleDollar_tail c t hdd
      have hlt : t.length ≤ n := by simpa using hs
      by_cases hc : c = '$'
      · subst hc
        cases t with
        | nil => simp only [replaceToken_single]
        | cons e r =>
          have he : e ≠ '$' := noDoubleDollar_second e r hdd
          have hr : noDoubleDollar r = true := noDoubleDollar_tail e r ht
          have hlr : r.length ≤ n := by
            simp only [List.length_cons] at hlt
            omega
          by_cases he1 : e = d1
          · subst he1
            rw [replaceToken_at, replaceToken_dollar d2 e g2 r h12,
              replaceToken_other d2 e g2 r he, replaceToken_at,
              replaceEveryFrom_before [d2] g2 g1 _ hg1, ih r hlr hr]
          · by_cases he2 : e = d2
            · subst he2
              rw [replaceToken_at, replaceToken_dollar d1 e g1 r he1,
                replaceToken_other d1 e g1 r he, replaceToken_at,
                replaceEveryFrom_before [d1] g1 g2 _ hg2, ih r hlr hr]
            · rw [replaceToken_dollar d2 e g2 r he2, replaceToken_other d2 e g2 r he,
                replaceToken_dollar d1 e g1 r he1, replaceToken_other d1 e g1 r he,
                replaceToken_dollar d1 e g1 _ he1, replaceToken_other d1 e g1 _ he,
                replaceToken_dollar d2 e g2 _ he2, replaceToken_other d2 e g2 _ he,
                ih r hlr hr]
      · rw [replaceToken_other d2 c g2 t hc, replaceToken_other d1 c g1 t hc,
          replaceToken_other d1 c g1 _ hc, replaceToken_other d2 c g2 _ hc, ih t hlt ht]

/-- The placeholders of the groups 1 to 9 are the two-character tokens `$1` .. `$9`. -/
theorem placeholder_small (k : Nat) (h1 : 1 ≤ k) (h9 : k ≤ 9) :
    placeholder k = ['$', Nat.digitChar k] ∧ Nat.digitChar k ≠ '$' := by
  interval_cases k <;> exact ⟨rfl, by decide⟩

theorem digitChar_small_injective (i j : Nat) (hi1 : 1 ≤ i) (hi9 : i ≤ 9) (hj1 : 1 ≤ j)
    (hj9 : j ≤ 9) (hij : i ≠ j) : Nat.digitChar i ≠ Nat.digitChar j := by
  interval_cases i <;> interval_cases j <;> first | exact absurd rfl hij | decide

/-- The replacements for groups among 1..9, with capture texts without `$`, on a text
free of `$$`: the order does not matter. -/
theorem substitute_perm (groupText : Nat → GoString) (l1 l2 : List Nat) (hperm : l1.Perm l2) :
    (∀ k ∈ l1, 1 ≤ k ∧ k ≤ 9 ∧ '$' ∉ groupText k) →
    ∀ s : GoString, noDoubleDollar s = true →
      l1.foldl (fun acc k => replaceEveryOccurrence (placeholder k) (groupText k) acc) s =
        l2.foldl (fun acc k => replaceEveryOccurrence (placeholder k) (groupText k) acc) s := by
  induction hperm with
  | nil => intro _ s _; rfl
  | cons x _ ih =>
    intro hk s hs
    obtain ⟨hx1, hx9, hxg⟩ := hk x (List.mem_cons_self _ _)
    obtain ⟨hpx, hdx⟩ := placeholder_small x hx1 hx9
    simp only [List.foldl_cons]
    apply ih (fun k hk1 => hk k (List.mem_cons_of_mem _ hk1))
    unfold replaceEveryOccurrence
    rw [hpx]
    exact replaceToken_noDoubleDollar _ _ hdx hxg s.length s (le_refl _) hs
  | swap x y l =>
    intro hk s hs
    obtain ⟨hy1, hy9, hyg⟩ := hk y (List.mem_cons_self _ _)
    obtain ⟨hx1, hx9, hxg⟩ := hk x (List.mem_cons_of_mem _ (List.mem_cons_self _ _))
    obtain ⟨hpx, hdx⟩ := placeholder_small x hx1 hx9
    obtain ⟨hpy, hdy⟩ := placeholder_small y hy1 hy9
    simp only [List.foldl_cons]
    by_cases hxy : x = y
    · subst hxy; rfl
    · congr 1
      unfold replaceEveryOccurrence
      rw [hpx, hpy]
      exact replaceToken_comm _ _ _ _
        (digitChar_small_injective x y hx1 hx9 hy1 hy9 hxy) hdx hdy hxg hyg s.length s
        (le_refl _) hs
  | trans h12 _ ih1 ih2 =>
    intro hk s hs
    rw [ih1 hk s hs]
    exact ih2 (fun k hk2 => hk k (h12.mem_iff.mpr hk2)) s hs

theorem replaceInOrder_eq (matcher : Matcher) :
    ∀ (order : List Nat) (s : GoString),
      replaceInOrder matcher order s =
        order.foldl
          (fun acc k => replaceEveryOccurrence (placeholder k) (matcher.GroupString k) acc) s := by
  intro order
  induction order with
  | nil => intro s; rfl
  | cons k rest ih =>
    intro s
    unfold replaceInOrder at ih ⊢
    simp only [List.foldl_cons]
    rw [ih, formatInt_nat, replace_all_eq _ _ _ (List.cons_ne_nil _ _)]
    rfl

/-- C17, as stated, fails: the order of the replacements matters (1) when a capture
text contains a placeholder, here group 1 is `$2`; (2) with ten groups, where `$1` is
a part of `$10`; (3) when a `$` stands in front of a placeholder, here `$$1` with
group 1 equal to `2`. In each case the groups taken in another order than the
increasing one give another text than `Rule.Apply`. -/
theorem placeholder_order_counterexample :
    ([2, 1] : List Nat).Perm (List.range' 1 2) ∧
    (hostPathRule.From.MatcherString "http://$2/x".toList).Matches = true ∧
    (hostPathRule.From.MatcherString "http://$2/x".toList).Groups = 2 ∧
    (hostPathRule.Apply "http://$2/x".toList).1 = "https://x/x".toList ∧
    replaceInOrder (hostPathRule.From.MatcherString "http://$2/x".toList) [2, 1]
        (strings.Replace "http://$2/x".toList
          ((hostPathRule.From.MatcherString "http://$2/x".toList).GroupString 0)
          hostPathRule.To 1)
      = "https://$2/x".toList ∧
    ([10, 1, 2, 3, 4, 5, 6, 7, 8, 9] : List Nat).Perm (List.range' 1 10) ∧
    (tenGroupsRule.Apply "http://abcdefghij/".toList).1 = "https://a0/".toList ∧
    replaceInOrder (tenGroupsRule.From.MatcherString "http://abcdefghij/".toList)
        [10, 1, 2, 3, 4, 5, 6, 7, 8, 9]
        (strings.Replace "http://abcdefghij/".toList
          ((tenGroupsRule.From.MatcherString "http://abcdefghij/".toList).GroupString 0)
          tenGroupsRule.To 1)
      = "https://j/".toList ∧
    (doubleDollarRule.Apply "http://2/x".toList).1 = "x".toList ∧
    replaceInOrder (doubleDollarRule.From.MatcherString "http://2/x".toList) [2, 1]
        (strings.Replace "http://2/x".toList
          ((doubleDollarRule.From.MatcherString "http://2/x".toList).GroupString 0)
          doubleDollarRule.To 1)
      = "$2".toList := by
  refine ⟨by decide, by decide, by decide, by decide, by decide, by decide, by decide,
    by decide, by decide, by decide⟩

/-- C17, amended: for a rule match with at most 9 capture groups whose capture texts
`g1..gN` contain no `$`, when the text in which the placeholders are replaced (the
URL with the template in place of the first occurrence of the full match) has no two
consecutive `$`, the replacements of `$k` by `gk` taken in any permutation of `1..N`
give the text returned by `Rule.Apply`, which takes them in increasing order. -/
theorem placeholder_order_independent (r : Rule) (u : GoString) (order : List Nat)
    (hm : (r.From.MatcherString u).Matches = true)
    (hN : (r.From.MatcherString u).Groups ≤ 9)
    (hg : ∀ k : Nat, 1 ≤ k → k ≤ (r.From.MatcherString u).Groups →
      '$' ∉ (r.From.MatcherString u).GroupString k)
    (hdd : ¬ "$$".toList <:+:
      strings.Replace u ((r.From.MatcherString u).GroupString 0) r.To 1)
    (horder : order.Perm (List.range' 1 (r.From.MatcherString u).Groups)) :
    replaceInOrder (r.From.MatcherString u) order
        (strings.Replace u ((r.From.MatcherString u).GroupString 0) r.To 1) =
      (r.Apply u).1 := by
  have happly : (r.Apply u).1 = Rule.groupLoop (r.From.MatcherString u)
      (r.From.MatcherString u).Groups 1
      (strings.Replace u ((r.From.MatcherString u).GroupString 0) r.To 1) := by
    unfold Rule.Apply
    simp [hm]
  rw [happly, groupLoop_eq, replaceInOrder_eq]
  apply substitute_perm _ _ _ horder
  · intro k hk
    have hk1 : k ∈ List.range' 1 (r.From.MatcherString u).Groups := horder.mem_iff.mp hk
    rw [List.mem_range'_1] at hk1
    exact ⟨hk1.1, by omega, hg k hk1.1 (by omega)⟩
  · exact (noDoubleDollar_iff _).mpr hdd

/-- Witness of C17, amended: the two groups of `^http://([^/]+)/(.*)$` on
`http://example.com/a`, taken in the order 2, 1. -/
theorem placeholder_order_independent_witness :
    replaceInOrder (hostPathRule.From.MatcherString "http://example.com/a".toList) [2, 1]
        (strings.Replace "http://example.com/a".toList
          ((hostPathRule.From.MatcherString "http://example.com/a".toList).GroupString 0)
          hostPathRule.To 1) =
      (hostPathRule.Apply "http://example.com/a".toList).1 ∧
    (hostPathRule.Apply "http://example.com/a".toList).1 = "https://example.com/a".toList :=
  ⟨placeholder_order_independent hostPathRule "http://example.com/a".toList [2, 1]
      (by decide) (by decide)
      (by
        intro k hk1 hk2
        have hk : k = 1 ∨ k = 2 := by
          have h2 : k ≤ 2 := hk2
          omega
        rcases hk with rfl | rfl <;> decide)
      (by rw [← noDoubleDollar_iff]; decide)
      (by decide),
    by decide⟩

end HttpsEverywhere
